import Mathlib

set_option maxHeartbeats 1000000

namespace Saba

/-!
Shallow embedding of the saba browser-engine core (HTML tokenizer and tree
construction, CSS tokenizer, JS lexer/parser/runtime), translated from the
repository sources.  Machine integers (`u64`) are embedded as `Nat` with
explicit `% 2 ^ 64` where overflow matters; fallible operations (out-of-bounds
indexing, `assert!`/`unimplemented!` panics) are made explicit in result types.
-/

/-! ## JS tokens and lexer -/

/-- JS token, from `renderer/js/token.rs` (declared there per `ast.rs` imports):
`Token::Number(u64)` and `Token::Punctuator(char)`. -/
inductive JsToken where
  | number (value : Nat)
  | punctuator (c : Char)
deriving DecidableEq, Repr

/-- Modelled from the spec: the file `renderer/js/token.rs` defining `JsLexer`
is not under `src/` (only its users are).  Per spec §4.4 the lexer produces
`Token::Number(u64)` from runs of ASCII digits.  `lexNumCount` folds a digit
run left to right, returning the accumulated value and the number of
characters consumed after the first digit. -/
def lexNumCount : List Char → Nat → Nat × Nat
  | [], acc => (acc, 0)
  | c :: cs, acc =>
    if c.isDigit then
      let r := lexNumCount cs (acc * 10 + (c.toNat - 48))
      (r.1, r.2 + 1)
    else (acc, 0)

/-- Modelled from the spec: `JsLexer` (file `renderer/js/token.rs`, absent from
`src/`).  Per spec §4.4: whitespace is skipped, a run of ASCII digits becomes
`Token::Number`, and any other single character becomes `Token::Punctuator`.
Fuel makes the recursion structural; every step consumes at least one
character, so fuel `≥ input.length` is always enough. -/
def jsLexF : Nat → List Char → List JsToken
  | 0, _ => []
  | _, [] => []
  | fuel + 1, c :: cs =>
    if c = ' ' ∨ c = '\n' then jsLexF fuel cs
    else if c.isDigit then
      let r := lexNumCount cs (c.toNat - 48)
      JsToken.number r.1 :: jsLexF fuel (cs.drop r.2)
    else JsToken.punctuator c :: jsLexF fuel cs

/-- `JsLexer` on a whole input, with adequate fuel. -/
def jsLex (input : List Char) : List JsToken := jsLexF input.length input

/-- Decimal rendering of a `u64` literal: the digit characters of `n`,
most significant first (`"0"` for zero). -/
def toDecChars (n : Nat) : List Char :=
  if n = 0 then ['0'] else ((Nat.digits 10 n).map Nat.digitChar).reverse

/-! ## JS AST and parser (`renderer/js/ast.rs`) -/

/-- The AST node type from `ast.rs` (`enum Node`): sum of
`ExpressionStatement`, `AdditiveExpression`, `AssignmentExpression`,
`MemberExpression`, `NumericLiteral`, each child an `Option` of a node. -/
inductive AstNode where
  | expressionStatement (expr : Option AstNode)
  | additiveExpression (operator : Char) (left : Option AstNode) (right : Option AstNode)
  | assignmentExpression (operator : Char) (left : Option AstNode) (right : Option AstNode)
  | memberExpression (object : Option AstNode) (property : Option AstNode)
  | numericLiteral (value : Nat)

/-- `JsParser::primary_expression`: always consumes the next token; a
`Number` yields `NumericLiteral`, anything else yields `None`. The remaining
token list plays the role of the mutable `Peekable<JsLexer>`. -/
def primary_expression : List JsToken → Option AstNode × List JsToken
  | [] => (Option.none, [])
  | t :: tl =>
    match t with
    | JsToken.number v => (some (AstNode.numericLiteral v), tl)
    | _ => (Option.none, tl)

/-- `JsParser::member_expression`: delegates to `primary_expression`. -/
def member_expression (ts : List JsToken) : Option AstNode × List JsToken :=
  primary_expression ts

/-- `JsParser::left_hand_side_expression`: delegates to `member_expression`. -/
def left_hand_side_expression (ts : List JsToken) : Option AstNode × List JsToken :=
  member_expression ts

/-- `JsParser::additive_expression` (fuel makes the right recursion through
`assignment_expression` structurally terminating; fuel `≥ ts.length + 1`
is always enough since each round consumes at least two tokens).
After the left operand, a peeked `+`/`-` punctuator is consumed and the
right operand is parsed by `assignment_expression` (which is
`additive_expression`), giving the right-associated AST. -/
def additive_expressionF : Nat → List JsToken → Option AstNode × List JsToken
  | 0, ts => (Option.none, ts)
  | fuel + 1, ts =>
    let r := left_hand_side_expression ts
    match r.2 with
    | [] => (r.1, [])
    | u :: ul =>
      match u with
      | JsToken.punctuator c =>
        if c = '+' ∨ c = '-' then
          let rr := additive_expressionF fuel ul
          (some (AstNode.additiveExpression c r.1 rr.1), rr.2)
        else (r.1, u :: ul)
      | _ => (r.1, u :: ul)

/-- `JsParser::assignment_expression`: delegates to `additive_expression`. -/
def assignment_expressionF (fuel : Nat) (ts : List JsToken) :
    Option AstNode × List JsToken :=
  additive_expressionF fuel ts

/-- `JsParser::statement`: wraps the assignment expression in an
`ExpressionStatement` and consumes a trailing `;` punctuator if peeked. -/
def statementF (fuel : Nat) (ts : List JsToken) : Option AstNode × List JsToken :=
  let r := assignment_expressionF fuel ts
  let node := some (AstNode.expressionStatement r.1)
  match r.2 with
  | JsToken.punctuator c :: rest => if c = ';' then (node, rest) else (node, r.2)
  | _ => (node, r.2)

/-- `JsParser::source_element` / `parse_ast`: loops `source_element` (peek
`None` ends the program; otherwise `statement`, whose result is always
`Some`, is pushed onto the body). -/
def parse_astF : Nat → List JsToken → List AstNode
  | 0, _ => []
  | fuel + 1, ts =>
    match ts with
    | [] => []
    | _ :: _ =>
      let r := statementF (fuel + 1) ts
      match r.1 with
      | Option.none => []
      | some n => n :: parse_astF fuel r.2

/-- `JsParser::parse_ast` with always-adequate fuel: returns the `Program`
body (ordered list of top-level nodes). -/
def parse_ast (ts : List JsToken) : List AstNode :=
  parse_astF (ts.length + 1) ts

/-! ## JS runtime (`renderer/js/runtime.rs`) -/

/-- `RuntimeValue` from `runtime.rs`: a single variant `Number(u64)`. -/
inductive RuntimeValue where
  | number (value : Nat)
deriving DecidableEq, Repr

/-- The `Add` impl for `RuntimeValue`: `u64` addition, embedded as `Nat`
addition reduced `% 2 ^ 64` (the wrapping two's-complement result). -/
def rvAdd : RuntimeValue → RuntimeValue → RuntimeValue
  | RuntimeValue.number lhs, RuntimeValue.number rhs =>
    RuntimeValue.number ((lhs + rhs) % 2 ^ 64)

/-- The `Sub` impl for `RuntimeValue`: `u64` subtraction, embedded as the
wrapping result `(2 ^ 64 + lhs - rhs) % 2 ^ 64` on `Nat` (for `lhs, rhs <
2 ^ 64` this is the two's-complement difference). -/
def rvSub : RuntimeValue → RuntimeValue → RuntimeValue
  | RuntimeValue.number lhs, RuntimeValue.number rhs =>
    RuntimeValue.number ((2 ^ 64 + lhs - rhs) % 2 ^ 64)

/-- `JsRuntime::evaluate`, the tree-walking evaluator.  `ExpressionStatement`
evaluates its inner expression; `AdditiveExpression` evaluates both operands
(short-circuiting to `None` when either yields no value) and applies `+` or
`-`; `AssignmentExpression` and `MemberExpression` are stubs returning
`None`; `NumericLiteral(n)` returns `Number(n)`. -/
def evaluateNode : AstNode → Option RuntimeValue
  | AstNode.expressionStatement expr =>
    match expr with
    | Option.none => Option.none
    | some e => evaluateNode e
  | AstNode.additiveExpression op l r =>
    match (match l with | Option.none => Option.none | some ln => evaluateNode ln) with
    | Option.none => Option.none
    | some lv =>
      match (match r with | Option.none => Option.none | some rn => evaluateNode rn) with
      | Option.none => Option.none
      | some rv =>
        if op = '+' then some (rvAdd lv rv)
        else if op = '-' then some (rvSub lv rv)
        else Option.none
  | AstNode.assignmentExpression _ _ _ => Option.none
  | AstNode.memberExpression _ _ => Option.none
  | AstNode.numericLiteral v => some (RuntimeValue.number v)

/-- `JsRuntime::evaluate` on an optional node (`None` yields no value). -/
def evaluate : Option AstNode → Option RuntimeValue
  | Option.none => Option.none
  | some n => evaluateNode n

/-- `JsRuntime::execute`: evaluates each top-level node of the program body
in order (collecting the values the Rust code computes and discards). -/
def execute (program : List AstNode) : List (Option RuntimeValue) :=
  program.map (fun n => evaluate (some n))

/-! ## CSS tokenizer (`renderer/css/token.rs`)

The tokenizer state is `pos : Nat` over `input : Vec<char>`, embedded as an
index into a `List Char`.  `Vec` indexing out of range (a Rust panic) is made
explicit as an `oob` result. -/

/-- `CssToken` from `css/token.rs`: twelve shapes.  String payloads are
`List Char`; `Number` carries the `f64`, embedded as `Float`. -/
inductive CssToken where
  | hashToken (s : List Char)
  | delim (c : Char)
  | number (value : Float)
  | colon
  | semiColon
  | openParenthesis
  | closeParenthesis
  | openCurly
  | closeCurly
  | ident (s : List Char)
  | stringToken (s : List Char)
  | atKeyword (s : List Char)

/-- The `while self.pos < len` loop of `CssTokenizer::consume_string_token`:
consume until the quote character reappears (bounds-checked).  Each step
advances `pos`, so fuel `≥ input.length + 1` is always enough. -/
def cssStrLoop (input : List Char) (quote : Char) :
    List Char → Nat → Nat → List Char × Nat
  | s, pos, 0 => (s, pos)
  | s, pos, fuel + 1 =>
    match input.get? pos with
    | Option.none => (s, pos)
    | some c =>
      if c = quote then (s, pos) else cssStrLoop input quote (s ++ [c]) (pos + 1) fuel

/-- `CssTokenizer::consume_string_token`: reads the quote character at `pos`
(`None` = out-of-bounds panic), then consumes until it reappears, leaving
`pos` at the closing quote (or at end of input). -/
def consume_string_token (input : List Char) (pos : Nat) :
    Option (List Char × Nat) :=
  match input.get? pos with
  | Option.none => Option.none
  | some quote => some (cssStrLoop input quote [] (pos + 1) (input.length + 1))

/-- The loop of `CssTokenizer::consume_numeric_token`: digits accumulate into
`num`; a `.` switches to the fractional part where each digit scales
`floating_digit` by `1/10` first.  Bounds are checked before indexing.  Fuel
`≥ input.length + 1` is always enough. -/
def cssNumLoop (input : List Char) :
    Float → Bool → Float → Nat → Nat → Float × Nat
  | num, _, _, pos, 0 => (num, pos)
  | num, floating, floating_digit, pos, fuel + 1 =>
    match input.get? pos with
    | Option.none => (num, pos)
    | some c =>
      if '0' ≤ c ∧ c ≤ '9' then
        if floating then
          let fd := floating_digit * (1.0 / 10.0)
          cssNumLoop input (num + Float.ofNat (c.toNat - 48) * fd) floating fd
            (pos + 1) fuel
        else
          cssNumLoop input (num * 10.0 + Float.ofNat (c.toNat - 48)) floating
            floating_digit (pos + 1) fuel
      else if c = '.' then cssNumLoop input num true floating_digit (pos + 1) fuel
      else (num, pos)

/-- `CssTokenizer::consume_numeric_token` with adequate fuel. -/
def consume_numeric_token (input : List Char) (pos : Nat) : Float × Nat :=
  cssNumLoop input 0.0 false 1.0 pos (input.length + 1)

/-- Identifier-body characters of `consume_ident_token`:
letters, digits, `-`, `_`. -/
def cssIdentChar (c : Char) : Bool :=
  ('a' ≤ c && c ≤ 'z') || ('A' ≤ c && c ≤ 'Z') || ('0' ≤ c && c ≤ '9') ||
    c = '-' || c = '_'

/-- Result of `consume_ident_token`: the identifier and the position of the
terminating character, an out-of-bounds read, or fuel exhaustion (never hit
from `cssNext`, whose fuel covers the whole input). -/
inductive IdentRes where
  | ok (s : List Char) (pos : Nat)
  | oob
  | fuelout

/-- The loop of `CssTokenizer::consume_ident_token`: `pos += 1` and THEN
index `input[pos]` — the bounds are NOT checked first, so a run reaching the
end of the input reads out of bounds (Rust: index panic), reported as
`IdentRes.oob`. -/
def cssIdentLoop (input : List Char) : List Char → Nat → Nat → IdentRes
  | _, _, 0 => IdentRes.fuelout
  | s, pos, fuel + 1 =>
    match input.get? (pos + 1) with
    | Option.none => IdentRes.oob
    | some c =>
      if cssIdentChar c then cssIdentLoop input (s ++ [c]) (pos + 1) fuel
      else IdentRes.ok s (pos + 1)

/-- `CssTokenizer::consume_ident_token`: pushes `input[pos]` then runs the
unchecked loop. -/
def consume_ident_token (input : List Char) (pos : Nat) : IdentRes :=
  match input.get? pos with
  | Option.none => IdentRes.oob
  | some c0 => cssIdentLoop input [c0] pos (input.length + 1)

/-- Result of one `CssTokenizer::next` call: a token with the new position,
end of iteration (`None`), an out-of-bounds index (Rust panic), the
`unimplemented!` arm for an unsupported character, or fuel exhaustion. -/
inductive CssNextRes where
  | tok (t : CssToken) (pos : Nat)
  | done
  | oob
  | unsupported (c : Char)
  | fuelout

/-- The `loop` of `CssTokenizer::next` (the loop only repeats on whitespace,
so fuel `≥ input.length + 1` is always enough). -/
def cssNextLoop (input : List Char) : Nat → Nat → CssNextRes
  | _, 0 => CssNextRes.fuelout
  | pos, fuel + 1 =>
    match input.get? pos with
    | Option.none => CssNextRes.done
    | some c =>
      if c = '(' then CssNextRes.tok CssToken.openParenthesis (pos + 1)
      else if c = ')' then CssNextRes.tok CssToken.closeParenthesis (pos + 1)
      else if c = ',' then CssNextRes.tok (CssToken.delim ',') (pos + 1)
      else if c = '.' then CssNextRes.tok (CssToken.delim '.') (pos + 1)
      else if c = ':' then CssNextRes.tok CssToken.colon (pos + 1)
      else if c = ';' then CssNextRes.tok CssToken.semiColon (pos + 1)
      else if c = '{' then CssNextRes.tok CssToken.openCurly (pos + 1)
      else if c = '}' then CssNextRes.tok CssToken.closeCurly (pos + 1)
      else if c = ' ' ∨ c = '\n' then cssNextLoop input (pos + 1) fuel
      else if c = '"' ∨ c = Char.ofNat 39 then
        match consume_string_token input pos with
        | Option.none => CssNextRes.oob
        | some (value, p) => CssNextRes.tok (CssToken.stringToken value) (p + 1)
      else if '0' ≤ c ∧ c ≤ '9' then
        let r := consume_numeric_token input pos
        CssNextRes.tok (CssToken.number r.1) r.2
      else if c = '#' then
        match consume_ident_token input pos with
        | IdentRes.ok value p => CssNextRes.tok (CssToken.hashToken value) p
        | IdentRes.oob => CssNextRes.oob
        | IdentRes.fuelout => CssNextRes.fuelout
      else if c = '-' then
        match consume_ident_token input pos with
        | IdentRes.ok value p => CssNextRes.tok (CssToken.ident value) p
        | IdentRes.oob => CssNextRes.oob
        | IdentRes.fuelout => CssNextRes.fuelout
      else if c = '@' then
        if pos + 3 < input.length ∧ (input.getD (pos + 1) ' ').isAlpha ∧
            (input.getD (pos + 2) ' ').isAlpha ∧ (input.getD (pos + 3) ' ').isAlpha then
          match consume_string_token input (pos + 1) with
          | Option.none => CssNextRes.oob
          | some (value, p) => CssNextRes.tok (CssToken.atKeyword value) p
        else CssNextRes.tok (CssToken.delim '@') (pos + 1)
      else if ('a' ≤ c ∧ c ≤ 'z') ∨ ('A' ≤ c ∧ c ≤ 'Z') ∨ c = '_' then
        match consume_ident_token input pos with
        | IdentRes.ok value p => CssNextRes.tok (CssToken.ident value) p
        | IdentRes.oob => CssNextRes.oob
        | IdentRes.fuelout => CssNextRes.fuelout
      else CssNextRes.unsupported c

/-- `CssTokenizer::next` with adequate fuel. -/
def cssNext (input : List Char) (pos : Nat) : CssNextRes :=
  cssNextLoop input pos (input.length + 1)

/-! ## HTML attributes and tokens

`renderer/html/attribute.rs` is not under `src/`; the `Attribute` type is
modelled from the spec. -/

/-- Modelled from the spec: `Attribute` (file `renderer/html/attribute.rs`,
absent from `src/`).  Per spec §3, a pair of strings `(name, value)` built
incrementally by appending characters to one of the two halves
(`add_char(c, is_name)`); `Attribute::new` starts with both halves empty. -/
structure Attribute where
  name : List Char
  value : List Char
deriving DecidableEq, Repr

/-- Modelled from the spec: `Attribute::new`. -/
def Attribute.new : Attribute := ⟨[], []⟩

/-- Modelled from the spec: `Attribute::add_char(c, is_name)` appends `c` to
the name when `is_name` and to the value otherwise. -/
def Attribute.add_char (a : Attribute) (c : Char) (is_name : Bool) : Attribute :=
  if is_name then { a with name := a.name ++ [c] } else { a with value := a.value ++ [c] }

/-- `HTMLToken` from `html/token.rs`: `StartTag`, `EndTag`, `Char`, `Eof`.
Tag names are `List Char`. -/
inductive HTMLToken where
  | startTag (tag : List Char) (self_closing : Bool) (attributes : List Attribute)
  | endTag (tag : List Char)
  | char (c : Char)
  | eof
deriving DecidableEq, Repr

/-- The tokenizer `State` enum from `html/token.rs` (18 states + `Data`.. as
in the source). -/
inductive TokState where
  | Data
  | TagOpen
  | EndTagOpen
  | TagName
  | BeforeAttributeName
  | AttributeName
  | AfterAttributeName
  | BeforeAttributeValue
  | AttributeValueDoubleQuoted
  | AttributeValueSingleQuoted
  | AttributeValueUnquoted
  | AfterAttributeValueQuoted
  | SelfClosingStartTag
  | ScriptData
  | ScriptDataLessThanSign
  | ScriptDataEndTagOpen
  | ScriptDataEndTagName
  | TemporaryBuffer
deriving DecidableEq, Repr

/-- `HtmlTokenizer` state: current DFA state, position, reconsume flag,
scratch `latest_token`, the character buffer, and the script-path temporary
buffer.  The weak `window` back-references and allocation details of the Rust
are not part of this state. -/
structure Tok where
  state : TokState
  pos : Nat
  reconsume : Bool
  latest_token : Option HTMLToken
  input : List Char
  buf : List Char
deriving DecidableEq, Repr

/-- `HtmlTokenizer::new`. -/
def tokInit (html : List Char) : Tok :=
  { state := TokState.Data, pos := 0, reconsume := false,
    latest_token := Option.none, input := html, buf := [] }

/-- `HtmlTokenizer::is_eof`: strict `pos > input.len()`. -/
def Tok.is_eof (t : Tok) : Bool := t.pos > t.input.length

/-- The character read at the top of the `next` loop:
`reconsume_input` (reads `input[pos - 1]` without advancing, clearing the
flag; underflow/out-of-range is a Rust panic, modelled as `none`) or
`consume_next_input` (reads `input[pos]` WITHOUT a bounds check — `none` is
the out-of-bounds index panic — then advances `pos`). -/
def getInput (t : Tok) : Option (Char × Tok) :=
  if t.reconsume then
    if t.pos = 0 then Option.none
    else
      match t.input.get? (t.pos - 1) with
      | Option.none => Option.none
      | some c => some (c, { t with reconsume := false })
  else
    match t.input.get? t.pos with
    | Option.none => Option.none
    | some c => some (c, { t with pos := t.pos + 1 })

/-- `HtmlTokenizer::create_tag`: install an empty `StartTag` or `EndTag` in
`latest_token`. -/
def createTag (t : Tok) (start_tag_token : Bool) : Tok :=
  if start_tag_token then
    { t with latest_token := some (HTMLToken.startTag [] false []) }
  else { t with latest_token := some (HTMLToken.endTag []) }

/-- `HtmlTokenizer::append_tag_name`: push `c` onto the tag of the latest
token; `none` is the `assert!`/`panic!` when `latest_token` is not a tag. -/
def appendTagName (t : Tok) (c : Char) : Option Tok :=
  match t.latest_token with
  | some (HTMLToken.startTag tag sc attrs) =>
    some { t with latest_token := some (HTMLToken.startTag (tag ++ [c]) sc attrs) }
  | some (HTMLToken.endTag tag) =>
    some { t with latest_token := some (HTMLToken.endTag (tag ++ [c])) }
  | _ => Option.none

/-- `HtmlTokenizer::take_latest_token`: hand out `latest_token` and clear the
slot; `none` is the `assert!` failure when the slot is empty. -/
def takeLatestToken (t : Tok) : Option (HTMLToken × Tok) :=
  match t.latest_token with
  | some tok => some (tok, { t with latest_token := Option.none })
  | Option.none => Option.none

/-- `HtmlTokenizer::start_new_attribute`: push a fresh `Attribute` onto the
latest `StartTag`; `none` is the panic for any other latest token. -/
def startNewAttribute (t : Tok) : Option Tok :=
  match t.latest_token with
  | some (HTMLToken.startTag tag sc attrs) =>
    some { t with latest_token := some (HTMLToken.startTag tag sc (attrs ++ [Attribute.new])) }
  | _ => Option.none

/-- `HtmlTokenizer::append_attribute`: `add_char` on the last attribute of
the latest `StartTag`; `none` covers both the non-`StartTag` panic and the
`assert!(len > 0)`. -/
def appendAttribute (t : Tok) (c : Char) (is_name : Bool) : Option Tok :=
  match t.latest_token with
  | some (HTMLToken.startTag tag sc attrs) =>
    match attrs.getLast? with
    | Option.none => Option.none
    | some a =>
      let attrs2 := attrs.dropLast ++ [a.add_char c is_name]
      some { t with latest_token := some (HTMLToken.startTag tag sc attrs2) }
  | _ => Option.none

/-- `HtmlTokenizer::set_self_closing_flag` on the latest `StartTag`; `none`
is the panic for any other latest token. -/
def setSelfClosingFlag (t : Tok) : Option Tok :=
  match t.latest_token with
  | some (HTMLToken.startTag tag _ attrs) =>
    some { t with latest_token := some (HTMLToken.startTag tag true attrs) }
  | _ => Option.none

/-- Result of one `HtmlTokenizer::next` call: a token plus the successor
state, iterator end (`None`), an out-of-bounds read (Rust index panic), an
assertion/`panic!` failure, or loop-fuel exhaustion. -/
inductive NextRes where
  | tok (token : HTMLToken) (st : Tok)
  | done
  | oob
  | panicked
  | fuelout
deriving DecidableEq, Repr

/-- ASCII helpers matching Rust `char::is_ascii_alphabetic` and
`char::is_ascii_uppercase`. -/
def isAsciiAlphabetic (c : Char) : Bool :=
  ('A' ≤ c && c ≤ 'Z') || ('a' ≤ c && c ≤ 'z')

/-- Rust `char::is_ascii_uppercase`. -/
def isAsciiUppercase (c : Char) : Bool := 'A' ≤ c && c ≤ 'Z'

/-- Rust `char::to_ascii_lowercase`: add 32 to an ASCII uppercase letter. -/
def toAsciiLowercase (c : Char) : Char :=
  if isAsciiUppercase c then Char.ofNat (c.toNat + 32) else c

/-- The `loop` body of `HtmlTokenizer::next`, one iteration per unit of
fuel.  Each iteration reads a character (`getInput`) and dispatches on
`state`, faithfully following the source arms, including the unchecked
reads (`oob`) and the helper panics (`panicked`). -/
def nextLoop : Nat → Tok → NextRes
  | 0, _ => NextRes.fuelout
  | fuel + 1, t =>
    match getInput t with
    | Option.none => NextRes.oob
    | some (c, t1) =>
      match t1.state with
      | TokState.Data =>
        if c = '<' then nextLoop fuel { t1 with state := TokState.TagOpen }
        else if t1.is_eof then NextRes.tok HTMLToken.eof t1
        else NextRes.tok (HTMLToken.char c) t1
      | TokState.TagOpen =>
        if c = '/' then nextLoop fuel { t1 with state := TokState.EndTagOpen }
        else if isAsciiAlphabetic c then
          nextLoop fuel
            (createTag { t1 with reconsume := true, state := TokState.TagName } true)
        else if t1.is_eof then NextRes.tok HTMLToken.eof t1
        else nextLoop fuel { t1 with reconsume := true, state := TokState.Data }
      | TokState.EndTagOpen =>
        if t1.is_eof then NextRes.tok HTMLToken.eof t1
        else if isAsciiAlphabetic c then
          nextLoop fuel
            (createTag { t1 with reconsume := true, state := TokState.TagName } false)
        else nextLoop fuel t1
      | TokState.TagName =>
        if c = ' ' then nextLoop fuel { t1 with state := TokState.BeforeAttributeName }
        else if c = '/' then nextLoop fuel { t1 with state := TokState.SelfClosingStartTag }
        else if c = '>' then
          match takeLatestToken { t1 with state := TokState.Data } with
          | some (tok, t2) => NextRes.tok tok t2
          | Option.none => NextRes.panicked
        else if isAsciiUppercase c then
          match appendTagName t1 (toAsciiLowercase c) with
          | some t2 => nextLoop fuel t2
          | Option.none => NextRes.panicked
        else if t1.is_eof then NextRes.tok HTMLToken.eof t1
        else
          match appendTagName t1 c with
          | some t2 => nextLoop fuel t2
          | Option.none => NextRes.panicked
      | TokState.BeforeAttributeName =>
        if c = '/' ∨ c = '>' ∨ t1.is_eof then
          nextLoop fuel { t1 with reconsume := true, state := TokState.AfterAttributeName }
        else
          match startNewAttribute { t1 with reconsume := true, state := TokState.AttributeName } with
          | some t2 => nextLoop fuel t2
          | Option.none => NextRes.panicked
      | TokState.AttributeName =>
        if c = ' ' ∨ c = '/' ∨ c = '>' ∨ t1.is_eof then
          nextLoop fuel { t1 with reconsume := true, state := TokState.AfterAttributeName }
        else if c = '=' then
          nextLoop fuel { t1 with state := TokState.BeforeAttributeValue }
        else if isAsciiUppercase c then
          match appendAttribute t1 (toAsciiLowercase c) true with
          | some t2 => nextLoop fuel t2
          | Option.none => NextRes.panicked
        else
          match appendAttribute t1 c true with
          | some t2 => nextLoop fuel t2
          | Option.none => NextRes.panicked
      | TokState.AfterAttributeName =>
        if c = ' ' then nextLoop fuel t1
        else if c = '/' then nextLoop fuel { t1 with state := TokState.SelfClosingStartTag }
        else if c = '=' then nextLoop fuel { t1 with state := TokState.BeforeAttributeValue }
        else if c = '>' then
          match takeLatestToken { t1 with state := TokState.Data } with
          | some (tok, t2) => NextRes.tok tok t2
          | Option.none => NextRes.panicked
        else if t1.is_eof then NextRes.tok HTMLToken.eof t1
        else
          match startNewAttribute { t1 with reconsume := true, state := TokState.AttributeName } with
          | some t2 => nextLoop fuel t2
          | Option.none => NextRes.panicked
      | TokState.BeforeAttributeValue =>
        if c = ' ' then nextLoop fuel t1
        else if c = '"' then
          nextLoop fuel { t1 with state := TokState.AttributeValueDoubleQuoted }
        else if c = Char.ofNat 39 then
          nextLoop fuel { t1 with state := TokState.AttributeValueSingleQuoted }
        else
          nextLoop fuel { t1 with reconsume := true, state := TokState.AttributeValueUnquoted }
      | TokState.AttributeValueDoubleQuoted =>
        if c = '"' then
          nextLoop fuel { t1 with state := TokState.AfterAttributeValueQuoted }
        else if t1.is_eof then NextRes.tok HTMLToken.eof t1
        else
          match appendAttribute t1 c false with
          | some t2 => nextLoop fuel t2
          | Option.none => NextRes.panicked
      | TokState.AttributeValueSingleQuoted =>
        if c = Char.ofNat 39 then
          nextLoop fuel { t1 with state := TokState.AfterAttributeValueQuoted }
        else if t1.is_eof then NextRes.tok HTMLToken.eof t1
        else
          match appendAttribute t1 c false with
          | some t2 => nextLoop fuel t2
          | Option.none => NextRes.panicked
      | TokState.AttributeValueUnquoted =>
        if c = ' ' then nextLoop fuel { t1 with state := TokState.BeforeAttributeName }
        else if c = '>' then
          match takeLatestToken { t1 with state := TokState.Data } with
          | some (tok, t2) => NextRes.tok tok t2
          | Option.none => NextRes.panicked
        else if t1.is_eof then NextRes.tok HTMLToken.eof t1
        else
          match appendAttribute t1 c false with
          | some t2 => nextLoop fuel t2
          | Option.none => NextRes.panicked
      | TokState.AfterAttributeValueQuoted =>
        if c = ' ' then nextLoop fuel { t1 with state := TokState.BeforeAttributeName }
        else if c = '/' then nextLoop fuel { t1 with state := TokState.SelfClosingStartTag }
        else if c = '>' then
          match takeLatestToken { t1 with state := TokState.Data } with
          | some (tok, t2) => NextRes.tok tok t2
          | Option.none => NextRes.panicked
        else if t1.is_eof then NextRes.tok HTMLToken.eof t1
        else nextLoop fuel { t1 with reconsume := true, state := TokState.BeforeAttributeName }
      | TokState.SelfClosingStartTag =>
        if c = '>' then
          match setSelfClosingFlag t1 with
          | some t2 =>
            match takeLatestToken { t2 with state := TokState.Data } with
            | some (tok, t3) => NextRes.tok tok t3
            | Option.none => NextRes.panicked
          | Option.none => NextRes.panicked
        else if t1.is_eof then NextRes.tok HTMLToken.eof t1
        else nextLoop fuel t1
      | TokState.ScriptData =>
        if c = '<' then nextLoop fuel { t1 with state := TokState.ScriptDataLessThanSign }
        else if t1.is_eof then NextRes.tok HTMLToken.eof t1
        else NextRes.tok (HTMLToken.char c) t1
      | TokState.ScriptDataLessThanSign =>
        if c = '/' then
          nextLoop fuel { t1 with buf := [], state := TokState.ScriptDataEndTagOpen }
        else NextRes.tok (HTMLToken.char '<')
          { t1 with reconsume := true, state := TokState.ScriptData }
      | TokState.ScriptDataEndTagOpen =>
        if isAsciiAlphabetic c then
          nextLoop fuel
            (createTag { t1 with reconsume := true, state := TokState.ScriptDataEndTagName } false)
        else NextRes.tok (HTMLToken.char '<')
          { t1 with reconsume := true, state := TokState.ScriptData }
      | TokState.ScriptDataEndTagName =>
        if c = '>' then
          match takeLatestToken { t1 with state := TokState.Data } with
          | some (tok, t2) => NextRes.tok tok t2
          | Option.none => NextRes.panicked
        else if isAsciiAlphabetic c then
          match appendTagName { t1 with buf := t1.buf ++ [c] } (toAsciiLowercase c) with
          | some t2 => nextLoop fuel t2
          | Option.none => NextRes.panicked
        else
          nextLoop fuel
            { t1 with state := TokState.TemporaryBuffer,
                      buf := '<' :: '/' :: t1.buf ++ [c] }
      | TokState.TemporaryBuffer =>
        let t2 := { t1 with reconsume := true }
        if t2.buf.length = 0 then nextLoop fuel { t2 with state := TokState.ScriptData }
        else
          match t2.buf with
          | [] => NextRes.panicked
          | c0 :: rest => NextRes.tok (HTMLToken.char c0) { t2 with buf := rest }

/-- Inner-loop fuel that always suffices for one `next` call: every
iteration advances `pos`, clears a pending reconsume, or shortens `buf`
before the next clearing step. -/
def tokFuel (t : Tok) : Nat := 2 * t.input.length + t.buf.length + 8

/-- `Iterator::next` for `HtmlTokenizer`: the entry guard returns `None`
(`NextRes.done`) as soon as `pos >= input.len()`; otherwise the loop runs. -/
def tokNext (t : Tok) : NextRes :=
  if t.pos ≥ t.input.length then NextRes.done
  else nextLoop (tokFuel t) t

/-- How a pull sequence over the tokenizer ended: entry guard (`None`),
a Rust panic (out-of-bounds read or assertion), or fuel exhaustion. -/
inductive PullEnd where
  | finished
  | failed
  | outOfSteam
deriving DecidableEq, Repr

/-- Pull up to `n` tokens from the tokenizer, recording how the sequence
ended. -/
def pulls : Nat → Tok → List HTMLToken × PullEnd
  | 0, _ => ([], PullEnd.outOfSteam)
  | n + 1, t =>
    match tokNext t with
    | NextRes.tok tok t2 =>
      let r := pulls n t2
      (tok :: r.1, r.2)
    | NextRes.done => ([], PullEnd.finished)
    | NextRes.oob => ([], PullEnd.failed)
    | NextRes.panicked => ([], PullEnd.failed)
    | NextRes.fuelout => ([], PullEnd.outOfSteam)

/-! ## DOM (`renderer/dom/node.rs`)

The `Rc<RefCell<Node>>` graph is embedded as an arena: nodes live in a list
indexed by `Nat` (node 0 is the `Document` created by `Window::new`), and
every `Rc`/`Weak` link is an optional index.  The weak `window`
back-reference of each node is not modelled (no claim concerns it). -/

/-- `ElementKind` from `dom/node.rs`: the closed set of supported tags. -/
inductive ElementKind where
  | html
  | head
  | style
  | script
  | body
  | p
  | h1
  | h2
  | a
deriving DecidableEq, Repr

/-- `ElementKind::from_str`: `Ok` for the nine known names, `Err` otherwise
(embedded as `Option`). -/
def ElementKind.from_str (s : List Char) : Option ElementKind :=
  if s = "html".toList then some ElementKind.html
  else if s = "head".toList then some ElementKind.head
  else if s = "style".toList then some ElementKind.style
  else if s = "script".toList then some ElementKind.script
  else if s = "body".toList then some ElementKind.body
  else if s = "p".toList then some ElementKind.p
  else if s = "h1".toList then some ElementKind.h1
  else if s = "h2".toList then some ElementKind.h2
  else if s = "a".toList then some ElementKind.a
  else Option.none

/-- `Element` from `dom/node.rs`: a kind and its attributes. -/
structure Element where
  kind : ElementKind
  attributes : List Attribute
deriving DecidableEq, Repr

/-- `NodeKind` from `dom/node.rs`: `Document`, `Element`, `Text`. -/
inductive NodeKind where
  | document
  | element (e : Element)
  | text (s : List Char)
deriving DecidableEq, Repr

/-- A DOM node cell: `kind` plus the five tree links of the Rust `Node`
(`parent`, `first_child`, `last_child`, `previous_sibling`,
`next_sibling`), each an optional arena index (`Weak::new()` /
`None` ↦ `Option.none`). -/
structure DomNode where
  kind : NodeKind
  parent : Option Nat
  first_child : Option Nat
  last_child : Option Nat
  previous_sibling : Option Nat
  next_sibling : Option Nat
deriving DecidableEq, Repr

instance : Inhabited DomNode :=
  ⟨{ kind := NodeKind.document, parent := Option.none, first_child := Option.none,
     last_child := Option.none, previous_sibling := Option.none,
     next_sibling := Option.none }⟩

/-- `Node::new`. -/
def DomNode.new (kind : NodeKind) : DomNode :=
  { kind := kind, parent := Option.none, first_child := Option.none,
    last_child := Option.none, previous_sibling := Option.none,
    next_sibling := Option.none }

/-- Arena lookup (out-of-range reads a default node with no links; all
indices stored by the parser are in range). -/
def nd (ns : List DomNode) (i : Nat) : DomNode := (ns.get? i).getD default

/-- Arena update at index `i`. -/
def updNd (ns : List DomNode) (i : Nat) (f : DomNode → DomNode) : List DomNode :=
  ns.set i (f (nd ns i))

/-- `Node::get_element_kind`. -/
def DomNode.get_element_kind (n : DomNode) : Option ElementKind :=
  match n.kind with
  | NodeKind.element e => some e.kind
  | _ => Option.none

/-! ## HTML parser (`renderer/html/parser.rs`) -/

/-- `InsertionMode` from `parser.rs`. -/
inductive InsertionMode where
  | Initial
  | BeforeHtml
  | BeforeHead
  | InHead
  | AfterHead
  | InBody
  | Text
  | AfterBody
  | AfterAfterBody
deriving DecidableEq, Repr

/-- `HtmlParser` state: the arena of DOM nodes (node 0 is the Window's
`Document`), the insertion modes, the stack of open elements (head of the
list = top of the stack), the tokenizer, and the current token being
processed (the `token` local of `construct_tree`; `Option.none` is the
iterator's `None`). -/
structure PState where
  nodes : List DomNode
  mode : InsertionMode
  original_insertion_mode : InsertionMode
  stack_of_open_elements : List Nat
  t : Tok
  token : Option HTMLToken
deriving DecidableEq, Repr

/-- Walk the `next_sibling` chain from `i` to its last node, as in the
`insert_element` loop.  `none` = fuel exhaustion (the Rust loop would
diverge only on a cycle, which the parser never creates; fuel
`≥ ns.length` always suffices since the chain's indices strictly
increase). -/
def lastSibling (ns : List DomNode) : Nat → Nat → Option Nat
  | _, 0 => Option.none
  | i, fuel + 1 =>
    match (nd ns i).next_sibling with
    | Option.none => some i
    | some j => lastSibling ns j fuel

/-- `HtmlParser::insert_element`: the insertion target is the top of the
stack of open elements, or the Document when the stack is empty.  A new
element node (`Element::new` panics on an unknown tag: `none`) is appended:
if the target has a `first_child`, the walk appends it after the LAST
sibling but sets its `previous_sibling` to the target's FIRST child (as the
source does); otherwise it becomes the `first_child`.  The target's
`last_child` and the node's `parent` are updated and the node is pushed
onto the stack. -/
def insert_element (st : PState) (tag : List Char) (attributes : List Attribute) :
    Option PState :=
  match ElementKind.from_str tag with
  | Option.none => Option.none
  | some kind =>
    let current := (st.stack_of_open_elements.head?).getD 0
    let nid := st.nodes.length
    let arena0 := st.nodes ++ [DomNode.new (NodeKind.element ⟨kind, attributes⟩)]
    match (nd arena0 current).first_child with
    | some fc =>
      match lastSibling arena0 fc arena0.length with
      | Option.none => Option.none
      | some last =>
        let arena1 := updNd arena0 last (fun n => { n with next_sibling := some nid })
        let arena2 := updNd arena1 nid (fun n => { n with previous_sibling := some fc })
        let arena3 := updNd arena2 current (fun n => { n with last_child := some nid })
        let arena4 := updNd arena3 nid (fun n => { n with parent := some current })
        some { st with nodes := arena4,
                       stack_of_open_elements := nid :: st.stack_of_open_elements }
    | Option.none =>
      let arena1 := updNd arena0 current (fun n => { n with first_child := some nid })
      let arena2 := updNd arena1 current (fun n => { n with last_child := some nid })
      let arena3 := updNd arena2 nid (fun n => { n with parent := some current })
      some { st with nodes := arena3,
                     stack_of_open_elements := nid :: st.stack_of_open_elements }

/-- `HtmlParser::insert_char`: with an empty stack the character is
dropped.  If the current node is a `Text` node the character is appended to
its string.  Whitespace is otherwise ignored.  A new `Text` node is
created; when the current node already has a `first_child`, the source
links the new node as `first_child.next_sibling` (WITHOUT walking to the
end of the chain) and sets its `previous_sibling` to that first child;
otherwise it becomes the `first_child`.  `last_child`/`parent` updates and
the stack push follow as for elements. -/
def insert_char (st : PState) (c : Char) : PState :=
  match st.stack_of_open_elements.head? with
  | Option.none => st
  | some current =>
    match (nd st.nodes current).kind with
    | NodeKind.text s =>
      let ns2 := updNd st.nodes current (fun n => { n with kind := NodeKind.text (s ++ [c]) })
      { st with nodes := ns2 }
    | _ =>
      if c = '\n' ∨ c = ' ' then st
      else
        let nid := st.nodes.length
        let arena0 := st.nodes ++ [DomNode.new (NodeKind.text [c])]
        match (nd arena0 current).first_child with
        | some fc =>
          let arena1 := updNd arena0 fc (fun n => { n with next_sibling := some nid })
          let arena2 := updNd arena1 nid (fun n => { n with previous_sibling := some fc })
          let arena3 := updNd arena2 current (fun n => { n with last_child := some nid })
          let arena4 := updNd arena3 nid (fun n => { n with parent := some current })
          { st with nodes := arena4,
                    stack_of_open_elements := nid :: st.stack_of_open_elements }
        | Option.none =>
          let arena1 := updNd arena0 current (fun n => { n with first_child := some nid })
          let arena2 := updNd arena1 current (fun n => { n with last_child := some nid })
          let arena3 := updNd arena2 nid (fun n => { n with parent := some current })
          { st with nodes := arena3,
                    stack_of_open_elements := nid :: st.stack_of_open_elements }

/-- `HtmlParser::pop_current_node`: pop the stack top only when it has the
given element kind; returns whether it popped. -/
def pop_current_node (st : PState) (element : ElementKind) : Bool × PState :=
  match st.stack_of_open_elements with
  | [] => (false, st)
  | i :: rest =>
    if (nd st.nodes i).get_element_kind = some element then
      (true, { st with stack_of_open_elements := rest })
    else (false, st)

/-- `HtmlParser::contain_in_stack`: linear search for an element kind. -/
def contain_in_stack (st : PState) (element_kind : ElementKind) : Bool :=
  st.stack_of_open_elements.any
    (fun i => (nd st.nodes i).get_element_kind = some element_kind)

/-- The popping loop of `HtmlParser::pop_until`: pop until a node of the
given kind has been popped (or the stack empties). -/
def popUntilLoop (ns : List DomNode) (element_kind : ElementKind) :
    List Nat → List Nat
  | [] => []
  | i :: rest =>
    if (nd ns i).get_element_kind = some element_kind then rest
    else popUntilLoop ns element_kind rest

/-- `HtmlParser::pop_until`: `assert!` that the kind is on the stack
(`none` = panic), then pop up to and including it. -/
def pop_until (st : PState) (element_kind : ElementKind) : Option PState :=
  if contain_in_stack st element_kind then
    let stk := popUntilLoop st.nodes element_kind st.stack_of_open_elements
    some { st with stack_of_open_elements := stk }
  else Option.none

/-- Result of one iteration of the `construct_tree` loop: return the Window
(its arena of nodes), continue with a new state, or hit a Rust panic
(including tokenizer panics, surfaced through `pull`). -/
inductive PStep where
  | ret (nodes : List DomNode)
  | cont (st : PState)
  | fail
deriving DecidableEq, Repr

/-- `token = self.t.next()`: pull the next token, threading the tokenizer
state; tokenizer panics (and inner-loop fuel exhaustion, which adequate
fuel rules out) surface as `err`. -/
inductive PullRes where
  | ok (token : Option HTMLToken) (t : Tok)
  | err
deriving DecidableEq, Repr

/-- Advance the token stream by one `next()` call. -/
def pull (t : Tok) : PullRes :=
  match tokNext t with
  | NextRes.tok tok t2 => PullRes.ok (some tok) t2
  | NextRes.done => PullRes.ok Option.none t
  | NextRes.oob => PullRes.err
  | NextRes.panicked => PullRes.err
  | NextRes.fuelout => PullRes.err

/-- Advance the current token of the parser state (`token = self.t.next()`
followed by `continue`). -/
def advance (st : PState) : PStep :=
  match pull st.t with
  | PullRes.ok tok t2 => PStep.cont { st with token := tok, t := t2 }
  | PullRes.err => PStep.fail

/-- One iteration of the `while token.is_some()` loop of
`HtmlParser::construct_tree`: the guard (`token = None` returns the
Window), then the match on the insertion mode, each arm translated from the
source.  Note the `InBody` arm: a `Char` token matches the final `_ => {}`
and leaves the whole state unchanged. -/
def pstep (st : PState) : PStep :=
  match st.token with
  | Option.none => PStep.ret st.nodes
  | some tok =>
    match st.mode with
    | InsertionMode.Initial =>
      match tok with
      | HTMLToken.char _ => advance st
      | _ => PStep.cont { st with mode := InsertionMode.BeforeHtml }
    | InsertionMode.BeforeHtml =>
      match tok with
      | HTMLToken.char c =>
        if c = ' ' ∨ c = '\n' then advance st
        else
          match insert_element st ("html".toList) [] with
          | some st2 => PStep.cont { st2 with mode := InsertionMode.BeforeHead }
          | Option.none => PStep.fail
      | HTMLToken.startTag tag _ attributes =>
        if tag = "html".toList then
          match insert_element st tag attributes with
          | some st2 => advance { st2 with mode := InsertionMode.BeforeHead }
          | Option.none => PStep.fail
        else
          match insert_element st ("html".toList) [] with
          | some st2 => PStep.cont { st2 with mode := InsertionMode.BeforeHead }
          | Option.none => PStep.fail
      | HTMLToken.eof => PStep.ret st.nodes
      | HTMLToken.endTag _ =>
        match insert_element st ("html".toList) [] with
        | some st2 => PStep.cont { st2 with mode := InsertionMode.BeforeHead }
        | Option.none => PStep.fail
    | InsertionMode.BeforeHead =>
      match tok with
      | HTMLToken.char c =>
        if c = ' ' ∨ c = '\n' then advance st
        else
          match insert_element st ("head".toList) [] with
          | some st2 => PStep.cont { st2 with mode := InsertionMode.InHead }
          | Option.none => PStep.fail
      | HTMLToken.startTag tag _ attributes =>
        if tag = "head".toList then
          match insert_element st tag attributes with
          | some st2 => advance { st2 with mode := InsertionMode.InHead }
          | Option.none => PStep.fail
        else
          match insert_element st ("head".toList) [] with
          | some st2 => PStep.cont { st2 with mode := InsertionMode.InHead }
          | Option.none => PStep.fail
      | HTMLToken.eof => PStep.ret st.nodes
      | HTMLToken.endTag _ =>
        match insert_element st ("head".toList) [] with
        | some st2 => PStep.cont { st2 with mode := InsertionMode.InHead }
        | Option.none => PStep.fail
    | InsertionMode.InHead =>
      match tok with
      | HTMLToken.char c =>
        if c = ' ' ∨ c = '\n' then advance (insert_char st c)
        else advance st
      | HTMLToken.startTag tag _ attributes =>
        if tag = "style".toList ∨ tag = "script".toList then
          match insert_element st tag attributes with
          | some st2 =>
            advance { st2 with original_insertion_mode := st.mode,
                               mode := InsertionMode.Text }
          | Option.none => PStep.fail
        else if tag = "body".toList then
          match pop_until st ElementKind.head with
          | some st2 => PStep.cont { st2 with mode := InsertionMode.AfterHead }
          | Option.none => PStep.fail
        else if (ElementKind.from_str tag).isSome then
          match pop_until st ElementKind.head with
          | some st2 => PStep.cont { st2 with mode := InsertionMode.AfterHead }
          | Option.none => PStep.fail
        else advance st
      | HTMLToken.endTag tag =>
        if tag = "head".toList then
          match pop_until st ElementKind.head with
          | some st2 => advance { st2 with mode := InsertionMode.AfterHead }
          | Option.none => PStep.fail
        else advance st
      | HTMLToken.eof => PStep.ret st.nodes
    | InsertionMode.AfterHead =>
      match tok with
      | HTMLToken.char c =>
        if c = ' ' ∨ c = '\n' then advance (insert_char st c)
        else
          match insert_element st ("body".toList) [] with
          | some st2 => PStep.cont { st2 with mode := InsertionMode.InBody }
          | Option.none => PStep.fail
      | HTMLToken.startTag tag _ attributes =>
        if tag = "body".toList then
          match insert_element st tag attributes with
          | some st2 => advance { st2 with mode := InsertionMode.InBody }
          | Option.none => PStep.fail
        else
          match insert_element st ("body".toList) [] with
          | some st2 => PStep.cont { st2 with mode := InsertionMode.InBody }
          | Option.none => PStep.fail
      | HTMLToken.eof => PStep.ret st.nodes
      | HTMLToken.endTag _ =>
        match insert_element st ("body".toList) [] with
        | some st2 => PStep.cont { st2 with mode := InsertionMode.InBody }
        | Option.none => PStep.fail
    | InsertionMode.InBody =>
      match tok with
      | HTMLToken.startTag tag _ attributes =>
        if tag = "p".toList then
          match insert_element st tag attributes with
          | some st2 => advance st2
          | Option.none => PStep.fail
        else advance st
      | HTMLToken.endTag tag =>
        if tag = "body".toList then
          if contain_in_stack st ElementKind.body then
            match pop_until st ElementKind.body with
            | some st2 => advance { st2 with mode := InsertionMode.AfterBody }
            | Option.none => PStep.fail
          else advance { st with mode := InsertionMode.AfterBody }
        else if tag = "html".toList then
          let r := pop_current_node st ElementKind.body
          if r.1 then
            let r2 := pop_current_node r.2 ElementKind.html
            if r2.1 then PStep.cont { r2.2 with mode := InsertionMode.AfterBody }
            else PStep.fail
          else advance st
        else advance st
      | HTMLToken.eof => PStep.ret st.nodes
      | HTMLToken.char _ => PStep.cont st
    | InsertionMode.Text =>
      match tok with
      | HTMLToken.eof => PStep.ret st.nodes
      | HTMLToken.endTag tag =>
        if tag = "style".toList then
          match pop_until st ElementKind.style with
          | some st2 => advance { st2 with mode := st.original_insertion_mode }
          | Option.none => PStep.fail
        else if tag = "script".toList then
          match pop_until st ElementKind.script with
          | some st2 => advance { st2 with mode := st.original_insertion_mode }
          | Option.none => PStep.fail
        else PStep.cont { st with mode := st.original_insertion_mode }
      | HTMLToken.char c => advance (insert_char st c)
      | HTMLToken.startTag _ _ _ =>
        PStep.cont { st with mode := st.original_insertion_mode }
    | InsertionMode.AfterBody =>
      match tok with
      | HTMLToken.char _ => advance st
      | HTMLToken.endTag tag =>
        if tag = "html".toList then
          advance { st with mode := InsertionMode.AfterAfterBody }
        else PStep.cont { st with mode := InsertionMode.InBody }
      | HTMLToken.eof => PStep.ret st.nodes
      | HTMLToken.startTag _ _ _ => PStep.cont { st with mode := InsertionMode.InBody }
    | InsertionMode.AfterAfterBody =>
      match tok with
      | HTMLToken.char _ => advance st
      | HTMLToken.eof => PStep.ret st.nodes
      | _ => PStep.cont { st with mode := InsertionMode.InBody }

/-- Result of running `construct_tree` with bounded fuel: the returned
Window's arena, a Rust panic, or fuel exhaustion (`construct_tree` never
returned within the given number of loop iterations). -/
inductive CtfRes where
  | window (nodes : List DomNode)
  | failed
  | outOfSteam
deriving DecidableEq, Repr

/-- The `while token.is_some()` loop of `construct_tree`, one `pstep` per
unit of fuel. -/
def construct_treeF : Nat → PState → CtfRes
  | 0, _ => CtfRes.outOfSteam
  | fuel + 1, st =>
    match pstep st with
    | PStep.ret ns => CtfRes.window ns
    | PStep.fail => CtfRes.failed
    | PStep.cont st2 => construct_treeF fuel st2

/-- `HtmlParser::new` over `HtmlTokenizer::new(input)` followed by the
initial `let mut token = self.t.next()`: the arena holds the Window's
single `Document` node and the first token is pulled. -/
def pInit (input : List Char) : Option PState :=
  match pull (tokInit input) with
  | PullRes.ok tok t2 =>
    some { nodes := [DomNode.new NodeKind.document],
           mode := InsertionMode.Initial,
           original_insertion_mode := InsertionMode.Initial,
           stack_of_open_elements := [],
           t := t2, token := tok }
  | PullRes.err => Option.none

/-- `HtmlParser::construct_tree` on a whole input string with the given
loop fuel. -/
def construct_tree (fuel : Nat) (input : List Char) : CtfRes :=
  match pInit input with
  | some st => construct_treeF fuel st
  | Option.none => CtfRes.failed

/-! ## Predicates for the tokenizer claims -/

/-- Does a string consist only of ASCII lowercase letters `a`–`z`? -/
def lowercaseAlpha (s : List Char) : Bool := s.all (fun c => 'a' ≤ c && c ≤ 'z')

/-- Has a token's tag no ASCII uppercase letter?  (`Char` and `Eof` tokens
carry no tag.) -/
def tagUppercaseFree : HTMLToken → Bool
  | HTMLToken.startTag tag _ _ => tag.all (fun c => !(isAsciiUppercase c))
  | HTMLToken.endTag tag => tag.all (fun c => !(isAsciiUppercase c))
  | _ => true

/-- Invariant of the tokenizer scratch slot: the pending tag (if any) has no
ASCII uppercase letter. -/
def latestOk (t : Tok) : Bool :=
  match t.latest_token with
  | some tok => tagUppercaseFree tok
  | Option.none => true

/-! ## DOM well-formedness apparatus (for the tree claims) -/

/-- Owning `first_child` edge in the arena. -/
def fcE (ns : List DomNode) (i j : Nat) : Prop := (nd ns i).first_child = some j

/-- Owning `next_sibling` edge in the arena. -/
def nsE (ns : List DomNode) (i j : Nat) : Prop := (nd ns i).next_sibling = some j

/-- `parent` back-reference. -/
def parentE (ns : List DomNode) (j p : Nat) : Prop := (nd ns j).parent = some p

/-- The nodes reachable from the Document (node 0) along the owning edges
`first_child` and `next_sibling`. -/
inductive ReachableFrom (ns : List DomNode) : Nat → Prop where
  | root : ReachableFrom ns 0
  | fc {i j : Nat} : ReachableFrom ns i → fcE ns i j → ReachableFrom ns j
  | sib {i j : Nat} : ReachableFrom ns i → nsE ns i j → ReachableFrom ns j

/-- The sibling chain starting at node `i`, following `next_sibling`
(fuel-bounded; fuel `≥ ns.length` is always enough for the parser's arenas,
whose sibling edges strictly increase). -/
def chainFrom (ns : List DomNode) : Nat → Nat → List Nat
  | _, 0 => []
  | i, fuel + 1 =>
    i :: (match (nd ns i).next_sibling with
          | Option.none => []
          | some j => chainFrom ns j fuel)

/-- The chain `p.first_child → next_sibling*` of children of `p`. -/
def childChain (ns : List DomNode) (p : Nat) : List Nat :=
  match (nd ns p).first_child with
  | Option.none => []
  | some fc0 => chainFrom ns fc0 ns.length

/-- Strict-ancestor relation: follow `parent` one or more steps up from `n`
to reach `p`. -/
def IsAncestorOf (ns : List DomNode) (p n : Nat) : Prop :=
  Relation.TransGen (fun a b => (nd ns a).parent = some b) n p

/-- Structural invariant of the parser's arenas (what `insert_element` and
`insert_char` actually maintain): owning edges point forward to allocated
nodes, children know their parent, siblings share their parent, `parent`
points backward, the Document has no sibling, and `previous_sibling` always
references the parent's FIRST child (which is what the source assigns). -/
structure Wf (ns : List DomNode) : Prop where
  doc_nosib : (nd ns 0).next_sibling = Option.none
  fc_lt : ∀ i j, fcE ns i j → i < j ∧ j < ns.length
  ns_lt : ∀ i j, nsE ns i j → i < j ∧ j < ns.length
  fc_parent : ∀ i j, fcE ns i j → (nd ns j).parent = some i
  ns_parent : ∀ i j, nsE ns i j → (nd ns j).parent = (nd ns i).parent
  parent_lt : ∀ j p, (nd ns j).parent = some p → p < j
  prev_fc : ∀ j k, (nd ns j).previous_sibling = some k →
    ∃ p, (nd ns j).parent = some p ∧ (nd ns p).first_child = some k

/-- Invariant of the full parser state: the arena is well-formed and
nonempty (node 0 is the Document), and the stack of open elements holds
allocated non-Document nodes. -/
def PInv (st : PState) : Prop :=
  Wf st.nodes ∧ 0 < st.nodes.length ∧
    ∀ i ∈ st.stack_of_open_elements, 0 < i ∧ i < st.nodes.length

/-- What one loop iteration guarantees: a continuation state keeps the
invariant; a returned Window arena is well-formed and nonempty; a panic
asserts nothing. -/
def stepOK (p : PStep) : Prop :=
  match p with
  | PStep.cont st2 => PInv st2
  | PStep.ret ns => Wf ns ∧ 0 < ns.length
  | PStep.fail => True

/-! ## Concrete states for the `InHead` claim -/

/-- The parser state reached by `construct_tree` on `"<html><head>"` right
before processing a start tag: Document → html → head in the arena, stack
`[head, html]`, mode `InHead`.  The tokenizer is exhausted and the current
token is the unknown start tag `<foo>`. -/
def fooState : PState :=
  { nodes :=
      [{ kind := NodeKind.document, parent := Option.none, first_child := some 1,
         last_child := some 1, previous_sibling := Option.none, next_sibling := Option.none },
       { kind := NodeKind.element ⟨ElementKind.html, []⟩, parent := some 0,
         first_child := some 2, last_child := some 2, previous_sibling := Option.none,
         next_sibling := Option.none },
       { kind := NodeKind.element ⟨ElementKind.head, []⟩, parent := some 1,
         first_child := Option.none, last_child := Option.none,
         previous_sibling := Option.none, next_sibling := Option.none }],
    mode := InsertionMode.InHead,
    original_insertion_mode := InsertionMode.Initial,
    stack_of_open_elements := [2, 1],
    t := tokInit [],
    token := some (HTMLToken.startTag ("foo".toList) false []) }

/-- The arena produced by `construct_tree` on
`"<html><head><style></style><script></script><style></style>"`:
Document → html → head → {style, script, style}.  The third child (node 5)
carries `previous_sibling = 3` although node 3's `next_sibling` is node 4. -/
def tripleArena : List DomNode :=
  [{ kind := NodeKind.document, parent := Option.none, first_child := some 1,
     last_child := some 1, previous_sibling := Option.none, next_sibling := Option.none },
   { kind := NodeKind.element ⟨ElementKind.html, []⟩, parent := some 0,
     first_child := some 2, last_child := some 2, previous_sibling := Option.none,
     next_sibling := Option.none },
   { kind := NodeKind.element ⟨ElementKind.head, []⟩, parent := some 1,
     first_child := some 3, last_child := some 5, previous_sibling := Option.none,
     next_sibling := Option.none },
   { kind := NodeKind.element ⟨ElementKind.style, []⟩, parent := some 2,
     first_child := Option.none, last_child := Option.none,
     previous_sibling := Option.none, next_sibling := some 4 },
   { kind := NodeKind.element ⟨ElementKind.script, []⟩, parent := some 2,
     first_child := Option.none, last_child := Option.none,
     previous_sibling := some 3, next_sibling := some 5 },
   { kind := NodeKind.element ⟨ElementKind.style, []⟩, parent := some 2,
     first_child := Option.none, last_child := Option.none,
     previous_sibling := some 3, next_sibling := Option.none }]

/-- The Window arena `construct_tree` returns on `"<html>"`: the Document
and its single `html` child. -/
def htmlArena : List DomNode :=
  [{ kind := NodeKind.document, parent := Option.none, first_child := some 1,
     last_child := some 1, previous_sibling := Option.none,
     next_sibling := Option.none },
   { kind := NodeKind.element ⟨ElementKind.html, []⟩, parent := some 0,
     first_child := Option.none, last_child := Option.none,
     previous_sibling := Option.none, next_sibling := Option.none }]

/-! ## Character arithmetic helpers -/

theorem charEqIffToNat (a b : Char) : a = b ↔ a.toNat = b.toNat := by
  constructor
  · intro h; rw [h]
  · intro h
    apply Char.eq_of_val_eq
    apply UInt32.ext
    simpa [Char.toNat] using h

theorem charLeIffToNat (a b : Char) : a ≤ b ↔ a.toNat ≤ b.toNat := by
  rw [Char.le_def]
  exact ⟨fun h => by exact_mod_cast h, fun h => by exact_mod_cast h⟩

/-! ## Lemmas on the JS lexer (digit runs and decimal literals) -/

theorem digitChar_isDigit {d : Nat} (h : d < 10) : (Nat.digitChar d).isDigit = true := by
  interval_cases d <;> decide

theorem digitChar_toNat {d : Nat} (h : d < 10) : (Nat.digitChar d).toNat - 48 = d := by
  interval_cases d <;> decide

theorem digitChar_not_ws {d : Nat} (h : d < 10) :
    ¬(Nat.digitChar d = ' ' ∨ Nat.digitChar d = '\n') := by
  interval_cases d <;> decide

theorem lexNumCount_run (ds : List Nat) (rest : List Char) :
    ∀ acc, (∀ d ∈ ds, d < 10) → (∀ c, rest.head? = some c → c.isDigit = false) →
    lexNumCount (ds.map Nat.digitChar ++ rest) acc =
      (ds.foldl (fun a d => a * 10 + d) acc, ds.length) := by
  induction ds with
  | nil =>
    intro acc _ hrest
    cases rest with
    | nil => simp [lexNumCount]
    | cons c cs =>
      have := hrest c rfl
      simp [lexNumCount, this]
  | cons d ds ih =>
    intro acc hds hrest
    have hd : d < 10 := hds d (by simp)
    simp only [List.map_cons, List.cons_append, lexNumCount, digitChar_isDigit hd,
      if_true, digitChar_toNat hd, List.append_eq]
    rw [ih (acc * 10 + d) (fun x hx => hds x (by simp [hx])) hrest]
    simp [List.foldl_cons]

theorem foldl_base10 (ds : List Nat) :
    ∀ acc, ds.foldl (fun a d => a * 10 + d) acc =
      acc * 10 ^ ds.length + Nat.ofDigits 10 ds.reverse := by
  induction ds with
  | nil => intro acc; simp [Nat.ofDigits]
  | cons d tl ih =>
    intro acc
    rw [List.foldl_cons, ih (acc * 10 + d)]
    simp only [List.reverse_cons, Nat.ofDigits_append, List.length_reverse,
      List.length_cons, Nat.ofDigits, Nat.ofDigits_singleton, Nat.cast_id]
    ring

theorem toDecChars_run (n : Nat) :
    ∃ ds : List Nat, toDecChars n = ds.map Nat.digitChar ∧ ds ≠ [] ∧
      (∀ d ∈ ds, d < 10) ∧ ds.foldl (fun a d => a * 10 + d) 0 = n := by
  by_cases h : n = 0
  · subst h
    exact ⟨[0], by decide, by decide, by decide, by decide⟩
  · refine ⟨(Nat.digits 10 n).reverse, ?_, ?_, ?_, ?_⟩
    · simp [toDecChars, h, List.map_reverse]
    · simp [Nat.digits_ne_nil_iff_ne_zero.mpr h]
    · intro d hd
      exact Nat.digits_lt_base (by norm_num) (List.mem_reverse.mp hd)
    · rw [foldl_base10, List.reverse_reverse, Nat.ofDigits_digits]
      ring

theorem jsLexF_congr : ∀ (f1 f2 : Nat) (l : List Char),
    l.length ≤ f1 → l.length ≤ f2 → jsLexF f1 l = jsLexF f2 l := by
  intro f1
  induction f1 with
  | zero =>
    intro f2 l h1 _
    have : l = [] := List.length_eq_zero.mp (Nat.le_zero.mp h1)
    subst this
    cases f2 <;> simp [jsLexF]
  | succ f1 ih =>
    intro f2 l h1 h2
    cases l with
    | nil => cases f2 <;> simp [jsLexF]
    | cons c cs =>
      cases f2 with
      | zero => simp at h2
      | succ f2 =>
        simp only [jsLexF]
        simp only [List.length_cons] at h1 h2
        have hcs : cs.length ≤ f1 := by omega
        have hcs2 : cs.length ≤ f2 := by omega
        by_cases hws : c = ' ' ∨ c = '\n'
        · simp [hws, ih f2 cs hcs hcs2]
        · by_cases hd : c.isDigit
          · simp only [hws, if_false, hd, if_true]
            have hdrop : (cs.drop (lexNumCount cs (c.toNat - 48)).2).length ≤ cs.length := by
              simp [List.length_drop]
            exact congrArg _ (ih f2 _ (le_trans hdrop hcs) (le_trans hdrop hcs2))
          · simp [hws, hd, ih f2 cs hcs hcs2]

theorem jsLex_decimal (n : Nat) (rest : List Char)
    (hrest : ∀ c, rest.head? = some c → c.isDigit = false) :
    jsLex (toDecChars n ++ rest) = JsToken.number n :: jsLex rest := by
  obtain ⟨ds, hmap, hne, hlt, hval⟩ := toDecChars_run n
  rw [hmap]
  cases ds with
  | nil => exact absurd rfl hne
  | cons d0 dtl =>
    have hd0 : d0 < 10 := hlt d0 (by simp)
    have hlen : ((d0 :: dtl).map Nat.digitChar ++ rest).length =
        dtl.length + rest.length + 1 := by
      simp only [List.length_append, List.length_map, List.length_cons]
      omega
    unfold jsLex
    rw [hlen]
    simp only [List.map_cons, List.cons_append, jsLexF, digitChar_not_ws hd0,
      if_false, digitChar_isDigit hd0, if_true, digitChar_toNat hd0, List.append_eq]
    rw [lexNumCount_run dtl rest (d0) (fun x hx => hlt x (by simp [hx])) hrest]
    have hfold : dtl.foldl (fun a d => a * 10 + d) d0 = n := by
      simpa using hval
    rw [hfold]
    have hdrop : List.drop dtl.length (List.map Nat.digitChar dtl ++ rest) = rest := by
      have hl : dtl.length = (List.map Nat.digitChar dtl).length :=
        (List.length_map _ _).symm
      rw [hl, List.drop_left]
    rw [hdrop]
    exact congrArg _ (jsLexF_congr (dtl.length + rest.length) rest.length rest
      (by omega) (le_refl _))

theorem jsLex_space (l : List Char) : jsLex (' ' :: l) = jsLex l := by
  unfold jsLex
  simp [jsLexF]

theorem jsLex_plusminus (c : Char) (l : List Char)
    (hws : ¬(c = ' ' ∨ c = '\n')) (hd : c.isDigit = false) :
    jsLex (c :: l) = JsToken.punctuator c :: jsLex l := by
  unfold jsLex
  simp [jsLexF, hws, hd]

/-! ## C7: JS addition and subtraction wrap on the u64 domain -/

/-- C7.  For all u64 literals `a` and `b`, lexing, parsing and executing
`"a + b"` yields `Number((a + b) mod 2^64)` and `"a - b"` yields
`Number((a - b) mod 2^64)` (the integer difference taken modulo `2^64`):
the operations are total and deterministic, wrapping on overflow and
underflow. -/
theorem js_addsub_wrapping (a b : Nat) (ha : a < 2 ^ 64) (hb : b < 2 ^ 64) :
    (parse_ast (jsLex (toDecChars a ++ ' ' :: '+' :: ' ' :: toDecChars b)) =
      [AstNode.expressionStatement (some (AstNode.additiveExpression '+'
        (some (AstNode.numericLiteral a)) (some (AstNode.numericLiteral b))))] ∧
     execute (parse_ast (jsLex (toDecChars a ++ ' ' :: '+' :: ' ' :: toDecChars b))) =
      [some (RuntimeValue.number ((a + b) % 2 ^ 64))]) ∧
    (parse_ast (jsLex (toDecChars a ++ ' ' :: '-' :: ' ' :: toDecChars b)) =
      [AstNode.expressionStatement (some (AstNode.additiveExpression '-'
        (some (AstNode.numericLiteral a)) (some (AstNode.numericLiteral b))))] ∧
     execute (parse_ast (jsLex (toDecChars a ++ ' ' :: '-' :: ' ' :: toDecChars b))) =
      [some (RuntimeValue.number ((((a : ℤ) - (b : ℤ)) % 2 ^ 64).toNat))]) := by
  have hsub : (2 ^ 64 + a - b) % 2 ^ 64 = (((a : ℤ) - (b : ℤ)) % 2 ^ 64).toNat := by
    omega
  have lexed : ∀ op : Char, ¬(op = ' ' ∨ op = '\n') → op.isDigit = false →
      jsLex (toDecChars a ++ ' ' :: op :: ' ' :: toDecChars b) =
        [JsToken.number a, JsToken.punctuator op, JsToken.number b] := by
    intro op hws hd
    rw [jsLex_decimal a _ (fun c hc => by
      simp only [List.head?_cons, Option.some.injEq] at hc
      subst hc; decide)]
    have hb2 := jsLex_decimal b [] (fun c hc => by simp at hc)
    rw [List.append_nil] at hb2
    rw [jsLex_space, jsLex_plusminus op _ hws hd, jsLex_space, hb2]
    rfl
  refine ⟨?_, ?_⟩
  · rw [lexed '+' (by decide) (by decide)]
    exact ⟨rfl, rfl⟩
  · rw [lexed '-' (by decide) (by decide)]
    refine ⟨rfl, ?_⟩
    show [some (RuntimeValue.number ((2 ^ 64 + a - b) % 2 ^ 64))] = _
    rw [hsub]

/-- Witness for C7 at `a = 1`, `b = 2`: `"1 + 2"` evaluates to `Number 3`
and `"1 - 2"` to `Number (2^64 - 1)`. -/
theorem js_addsub_wrapping_witness :
    (1 : Nat) < 2 ^ 64 ∧ (2 : Nat) < 2 ^ 64 ∧
    execute (parse_ast (jsLex (toDecChars 1 ++ ' ' :: '-' :: ' ' :: toDecChars 2))) =
      [some (RuntimeValue.number ((((1 : ℤ) - (2 : ℤ)) % 2 ^ 64).toNat))] :=
  ⟨by norm_num, by norm_num,
   ((js_addsub_wrapping 1 2 (by norm_num) (by norm_num)).2).2⟩

/-! ## C8: right-associated AST and evaluation of `"1 - 2 - 3"` -/

/-- C8.  `"1 - 2 - 3"` parses to the right-associated AST
`AdditiveExpression('-', 1, AdditiveExpression('-', 2, 3))` and evaluates,
under wrapping u64 arithmetic, to `Number(1 - (2 - 3)) = Number 2`. -/
theorem js_right_assoc :
    parse_ast (jsLex ("1 - 2 - 3".toList)) =
      [AstNode.expressionStatement (some (AstNode.additiveExpression '-'
        (some (AstNode.numericLiteral 1))
        (some (AstNode.additiveExpression '-' (some (AstNode.numericLiteral 2))
          (some (AstNode.numericLiteral 3))))))] ∧
    execute (parse_ast (jsLex ("1 - 2 - 3".toList))) =
      [some (RuntimeValue.number 2)] :=
  ⟨rfl, rfl⟩

/-! ## Lemmas on the CSS identifier loop (C10) -/

theorem cssIdentLoop_safe (run : List Char) :
    ∀ (input : List Char) (pos : Nat) (s : List Char) (fuel : Nat) (d : Char)
      (rest : List Char),
    (∀ k, input.get? (pos + 1 + k) = (run ++ d :: rest).get? k) →
    (∀ x ∈ run, cssIdentChar x = true) → cssIdentChar d = false →
    run.length + 1 ≤ fuel →
    cssIdentLoop input s pos fuel = IdentRes.ok (s ++ run) (pos + run.length + 1) := by
  induction run with
  | nil =>
    intro input pos s fuel d rest hget _ hd hfuel
    obtain ⟨f, rfl⟩ : ∃ f, fuel = f + 1 := ⟨fuel - 1, by omega⟩
    have h0 : input.get? (pos + 1) = some d := by simpa using hget 0
    simp only [cssIdentLoop]
    rw [h0]
    simp [hd]
  | cons r rs ih =>
    intro input pos s fuel d rest hget hrun hd hfuel
    obtain ⟨f, rfl⟩ : ∃ f, fuel = f + 1 := ⟨fuel - 1, by omega⟩
    have h0 : input.get? (pos + 1) = some r := by simpa using hget 0
    have hr : cssIdentChar r = true := hrun r (by simp)
    simp only [cssIdentLoop]
    rw [h0]
    simp only [hr, if_true]
    have hget2 : ∀ k, input.get? (pos + 1 + 1 + k) = (rs ++ d :: rest).get? k := by
      intro k
      have h := hget (k + 1)
      rw [List.cons_append, List.get?_cons_succ] at h
      rw [show pos + 1 + 1 + k = pos + 1 + (k + 1) from by omega]
      exact h
    have := ih input (pos + 1) (s ++ [r]) f d rest hget2
      (fun x hx => hrun x (by simp [hx])) hd
      (by simp only [List.length_cons] at hfuel; omega)
    rw [this]
    congr 1
    · simp
    · simp only [List.length_cons]
      omega

theorem cssIdentLoop_oob (run : List Char) :
    ∀ (input : List Char) (pos : Nat) (s : List Char) (fuel : Nat),
    (∀ k, input.get? (pos + 1 + k) = run.get? k) →
    (∀ x ∈ run, cssIdentChar x = true) →
    run.length + 1 ≤ fuel →
    cssIdentLoop input s pos fuel = IdentRes.oob := by
  induction run with
  | nil =>
    intro input pos s fuel hget _ hfuel
    obtain ⟨f, rfl⟩ : ∃ f, fuel = f + 1 := ⟨fuel - 1, by omega⟩
    have h0 : input.get? (pos + 1) = Option.none := by simpa using hget 0
    simp only [cssIdentLoop]
    rw [h0]
  | cons r rs ih =>
    intro input pos s fuel hget hrun hfuel
    obtain ⟨f, rfl⟩ : ∃ f, fuel = f + 1 := ⟨fuel - 1, by omega⟩
    have h0 : input.get? (pos + 1) = some r := by simpa using hget 0
    have hr : cssIdentChar r = true := hrun r (by simp)
    simp only [cssIdentLoop]
    rw [h0]
    simp only [hr, if_true]
    apply ih input (pos + 1) (s ++ [r]) f
    · intro k
      have h := hget (k + 1)
      rw [List.get?_cons_succ] at h
      rw [show pos + 1 + 1 + k = pos + 1 + (k + 1) from by omega]
      exact h
    · exact fun x hx => hrun x (by simp [hx])
    · simp only [List.length_cons] at hfuel; omega

/-- Characters that route `CssTokenizer::next` into the `Ident` arm
(a letter or `_`) fail all the earlier guards of the `match`. -/
theorem letterGuards (c0 : Char)
    (h : ('a' ≤ c0 ∧ c0 ≤ 'z') ∨ ('A' ≤ c0 ∧ c0 ≤ 'Z') ∨ c0 = '_') :
    c0 ≠ '(' ∧ c0 ≠ ')' ∧ c0 ≠ ',' ∧ c0 ≠ '.' ∧ c0 ≠ ':' ∧ c0 ≠ ';' ∧
    c0 ≠ '{' ∧ c0 ≠ '}' ∧ ¬(c0 = ' ' ∨ c0 = '\n') ∧
    ¬(c0 = '"' ∨ c0 = Char.ofNat 39) ∧ ¬('0' ≤ c0 ∧ c0 ≤ '9') ∧
    c0 ≠ '#' ∧ c0 ≠ '-' ∧ c0 ≠ '@' := by
  have hx : 97 ≤ c0.toNat ∧ c0.toNat ≤ 122 ∨ 65 ≤ c0.toNat ∧ c0.toNat ≤ 90 ∨
      c0.toNat = 95 := by
    rcases h with ⟨h1, h2⟩ | ⟨h1, h2⟩ | h1
    · exact Or.inl ⟨(charLeIffToNat _ _).mp h1, (charLeIffToNat _ _).mp h2⟩
    · exact Or.inr (Or.inl ⟨(charLeIffToNat _ _).mp h1, (charLeIffToNat _ _).mp h2⟩)
    · exact Or.inr (Or.inr (by rw [h1]; rfl))
  refine ⟨?_, ?_, ?_, ?_, ?_, ?_, ?_, ?_, ?_, ?_, ?_, ?_, ?_, ?_⟩
  · intro heq; rw [heq] at hx; revert hx; decide
  · intro heq; rw [heq] at hx; revert hx; decide
  · intro heq; rw [heq] at hx; revert hx; decide
  · intro heq; rw [heq] at hx; revert hx; decide
  · intro heq; rw [heq] at hx; revert hx; decide
  · intro heq; rw [heq] at hx; revert hx; decide
  · intro heq; rw [heq] at hx; revert hx; decide
  · intro heq; rw [heq] at hx; revert hx; decide
  · rintro (heq | heq) <;> (rw [heq] at hx; revert hx; decide)
  · rintro (heq | heq) <;> (rw [heq] at hx; revert hx; decide)
  · rintro ⟨ha, hb⟩
    rw [charLeIffToNat] at ha hb
    have h48 : ('0').toNat = 48 := rfl
    have h57 : ('9').toNat = 57 := rfl
    rw [h48] at ha; rw [h57] at hb
    omega
  · intro heq; rw [heq] at hx; revert hx; decide
  · intro heq; rw [heq] at hx; revert hx; decide
  · intro heq; rw [heq] at hx; revert hx; decide

/-! ## C10: CSS identifier consumption and end-of-input -/

/-- C10 counterexample.  On the input `"red"`, whose final character ends an
identifier run, `CssTokenizer::next` does NOT safely return the `Ident`
token: `consume_ident_token` advances `pos` past the end and indexes the
buffer out of bounds (a Rust panic). -/
theorem css_red_reads_out_of_bounds :
    cssNext ("red".toList) 0 = CssNextRes.oob := rfl

/-- C10 as amended.  `consume_ident_token` indexes `input[pos + 1]` before
any bounds check, so: (oob) whenever an identifier run that begins at the
current position extends to the end of the input, `next()` reads past the
end of the buffer; (safe) when the run is followed by a further,
non-identifier character, `next()` returns the `Ident` token covering the
run (resp. the `HashToken` for a `#`-led run) and stops on that
character. -/
theorem css_ident_bounds (pre run rest : List Char) (c0 d : Char)
    (hc0 : ('a' ≤ c0 ∧ c0 ≤ 'z') ∨ ('A' ≤ c0 ∧ c0 ≤ 'Z') ∨ c0 = '_')
    (hrun : ∀ x ∈ run, cssIdentChar x = true)
    (hd : cssIdentChar d = false) :
    cssNext (pre ++ c0 :: run) pre.length = CssNextRes.oob ∧
    cssNext (pre ++ c0 :: run ++ d :: rest) pre.length =
      CssNextRes.tok (CssToken.ident (c0 :: run)) (pre.length + run.length + 1) := by
  obtain ⟨g1, g2, g3, g4, g5, g6, g7, g8, g9, g10, g11, g12, g13, g14⟩ :=
    letterGuards c0 hc0
  constructor
  · have hget0 : (pre ++ c0 :: run).get? pre.length = some c0 := by
      rw [List.get?_append_right (le_refl _)]
      simp
    have hgetk : ∀ k, (pre ++ c0 :: run).get? (pre.length + 1 + k) = run.get? k := by
      intro k
      rw [List.get?_append_right (by omega)]
      have : pre.length + 1 + k - pre.length = k + 1 := by omega
      rw [this]
      simp [List.get?]
    have hfuel : run.length + 1 ≤ (pre ++ c0 :: run).length + 1 := by
      simp [List.length_append]
      omega
    unfold cssNext
    obtain ⟨f, hf⟩ : ∃ f, (pre ++ c0 :: run).length + 1 = f + 1 :=
      ⟨(pre ++ c0 :: run).length, rfl⟩
    rw [hf]
    simp only [cssNextLoop]
    rw [hget0]
    simp only [g1, g2, g3, g4, g5, g6, g7, g8, g9, g10, g11, g12, g13, g14,
      hc0, if_true, if_false]
    have hcons : consume_ident_token (pre ++ c0 :: run) pre.length =
        cssIdentLoop (pre ++ c0 :: run) [c0] pre.length
          ((pre ++ c0 :: run).length + 1) := by
      unfold consume_ident_token
      rw [hget0]
    rw [hcons, cssIdentLoop_oob run _ _ _ _ hgetk hrun
      (by simp only [List.length_append, List.length_cons]; omega)]
  · have hget0 : (pre ++ c0 :: run ++ d :: rest).get? pre.length = some c0 := by
      rw [List.append_assoc, List.get?_append_right (le_refl _)]
      simp
    have hgetk : ∀ k, (pre ++ c0 :: run ++ d :: rest).get? (pre.length + 1 + k) =
        (run ++ d :: rest).get? k := by
      intro k
      rw [List.append_assoc, List.get?_append_right (by omega)]
      have : pre.length + 1 + k - pre.length = k + 1 := by omega
      rw [this]
      simp [List.get?]
    unfold cssNext
    obtain ⟨f, hf⟩ : ∃ f, (pre ++ c0 :: run ++ d :: rest).length + 1 = f + 1 :=
      ⟨(pre ++ c0 :: run ++ d :: rest).length, rfl⟩
    rw [hf]
    simp only [cssNextLoop]
    rw [hget0]
    simp only [g1, g2, g3, g4, g5, g6, g7, g8, g9, g10, g11, g12, g13, g14,
      hc0, if_true, if_false]
    have hcons : consume_ident_token (pre ++ c0 :: run ++ d :: rest) pre.length =
        cssIdentLoop (pre ++ c0 :: run ++ d :: rest) [c0] pre.length
          ((pre ++ c0 :: run ++ d :: rest).length + 1) := by
      unfold consume_ident_token
      rw [hget0]
    rw [hcons, cssIdentLoop_safe run _ _ _ _ d rest hgetk hrun hd
      (by simp only [List.length_append, List.length_cons]; omega)]
    rfl

/-- Witness for C10 as amended, at the inputs `"red"` (trailing run: oob)
and `"red;x"` (run followed by `;`: the `Ident` is returned safely). -/
theorem css_ident_bounds_witness :
    cssNext ("red".toList) 0 = CssNextRes.oob ∧
    cssNext ("red;x".toList) 0 =
      CssNextRes.tok (CssToken.ident ("red".toList)) 3 := by
  have h := css_ident_bounds [] ("ed".toList) ("x".toList) 'r' ';'
    (by decide) (by decide) (by decide)
  exact ⟨h.1, h.2⟩

/-! ## C4: end of input in the HTML tokenizer -/

/-- C4 counterexample.  A complete tokenization of `"ab"` (which exhausts
the input) delivers the two `Char` tokens and then terminates WITHOUT ever
yielding `Eof`: once `pos >= len`, `next()` returns `None` immediately
(the `is_eof` test `pos > len` is unreachable behind the entry guard
`pos >= len`). -/
theorem tokenizer_no_eof_token :
    pulls 5 (tokInit ("ab".toList)) =
      ([HTMLToken.char 'a', HTMLToken.char 'b'], PullEnd.finished) ∧
    HTMLToken.eof ∉ (pulls 5 (tokInit ("ab".toList))).1 ∧
    tokNext (tokInit []) = NextRes.done := by
  refine ⟨rfl, ?_, rfl⟩
  decide

/-- C4 as amended.  Once the tokenizer's position has reached or passed the
input length, every pull yields nothing at all (the iterator's `None`): the
sequence terminates immediately and no `Eof` token is emitted. -/
theorem tokNext_done_at_end (t : Tok) (h : t.input.length ≤ t.pos) :
    tokNext t = NextRes.done := by
  unfold tokNext
  rw [if_pos h]

/-- Witness for C4 as amended: the exhausted tokenizer of `"ab"`
(`pos = 2`) yields `None`. -/
theorem tokNext_done_at_end_witness :
    ({ tokInit ("ab".toList) with pos := 2 } : Tok).input.length ≤
      ({ tokInit ("ab".toList) with pos := 2 } : Tok).pos ∧
    tokNext { tokInit ("ab".toList) with pos := 2 } = NextRes.done :=
  ⟨by decide, tokNext_done_at_end _ (by decide)⟩

/-! ## C5: tokenizer bounds behavior -/

/-- C5 counterexample.  On the input `"<"`, the call of `next()` consumes
`<`, moves to `TagOpen` and immediately indexes `input[1]` — one past the
end of the one-character buffer (a Rust index panic); likewise `"<p"`
fails.  So not every `next()` call is safe on inputs ending inside a tag. -/
theorem tokenizer_lt_reads_out_of_bounds :
    tokNext (tokInit ("<".toList)) = NextRes.oob ∧
    pulls 3 (tokInit ("<p".toList)) = ([], PullEnd.failed) := ⟨rfl, rfl⟩

theorem pulls_data_chars : ∀ (k : Nat) (t : Tok),
    t.state = TokState.Data → t.reconsume = false →
    t.pos + k = t.input.length →
    (∀ i c, t.input.get? i = some c → c ≠ '<') →
    pulls (k + 1) t = ((t.input.drop t.pos).map HTMLToken.char, PullEnd.finished) := by
  intro k
  induction k with
  | zero =>
    intro t hst hrec hlen hlt
    have hdrop : t.input.drop t.pos = [] := by
      apply List.drop_eq_nil_of_le
      omega
    rw [hdrop]
    have hdone : tokNext t = NextRes.done :=
      tokNext_done_at_end _ (by omega)
    simp [pulls, hdone]
  | succ k ih =>
    intro t hst hrec hlen hlt
    obtain ⟨st, pos, rec, lt, input, buf⟩ := t
    simp only at hst hrec hlen hlt
    subst hst
    subst hrec
    have hpos : pos < input.length := by omega
    obtain ⟨c, hc⟩ : ∃ c, input.get? pos = some c := by
      rw [List.get?_eq_get hpos]
      exact ⟨_, rfl⟩
    have hne : ¬(c = '<') := hlt pos c hc
    have heof : ¬(pos + 1 > input.length) := by omega
    have hnext : tokNext ⟨TokState.Data, pos, false, lt, input, buf⟩ =
        NextRes.tok (HTMLToken.char c) ⟨TokState.Data, pos + 1, false, lt, input, buf⟩ := by
      unfold tokNext
      rw [if_neg (by simp only [not_le]; exact hpos)]
      obtain ⟨f, hf⟩ : ∃ f, tokFuel ⟨TokState.Data, pos, false, lt, input, buf⟩ =
        f + 1 := ⟨_, rfl⟩
      rw [hf]
      simp only [nextLoop, getInput]
      rw [hc]
      simp [Tok.is_eof, hne, heof]
    rw [pulls, hnext]
    show (HTMLToken.char c ::
        (pulls (k + 1) ⟨TokState.Data, pos + 1, false, lt, input, buf⟩).1,
        (pulls (k + 1) ⟨TokState.Data, pos + 1, false, lt, input, buf⟩).2) = _
    rw [ih ⟨TokState.Data, pos + 1, false, lt, input, buf⟩ rfl rfl
      (by simp only; omega) (fun i c2 hc2 => hlt i c2 hc2)]
    simp only
    rw [List.drop_eq_getElem_cons hpos]
    simp only [List.map_cons]
    congr 2
    rw [List.get?_eq_get hpos] at hc
    simpa using hc.symm

/-- C5 as amended.  For every input string in which `<` does not occur, the
tokenizer is total and safe: it delivers every character of the input as a
`Char` token, in order, and then the sequence finishes (no out-of-bounds
read, no panic).  (Inputs that end inside a tag, such as `"<"` or `"<p"`,
instead make `next()` index past the end of the buffer.) -/
theorem tokenizer_safe_without_lt (input : List Char)
    (h : ∀ c ∈ input, c ≠ '<') :
    pulls (input.length + 1) (tokInit input) =
      (input.map HTMLToken.char, PullEnd.finished) := by
  have := pulls_data_chars input.length (tokInit input) rfl rfl
    (by simp [tokInit]) (fun i c hc => h c (List.get?_mem hc))
  simpa [tokInit] using this

/-- Witness for C5 as amended at the input `"ab"`. -/
theorem tokenizer_safe_without_lt_witness :
    (∀ c ∈ ("ab".toList), c ≠ '<') ∧
    pulls (("ab".toList).length + 1) (tokInit ("ab".toList)) =
      (("ab".toList).map HTMLToken.char, PullEnd.finished) :=
  ⟨by decide, tokenizer_safe_without_lt _ (by decide)⟩

/-! ## C9: tag-name case discipline -/

theorem charToNatOfNat (n : Nat) (h : Nat.isValidChar n) :
    (Char.ofNat n).toNat = n := by
  unfold Char.ofNat
  simp only [h, dite_true, dif_pos]
  simp [Char.ofNatAux, Char.toNat, UInt32.toNat, UInt32.ofNatCore]

theorem toLower_not_upper (c : Char) :
    isAsciiUppercase (toAsciiLowercase c) = false := by
  unfold toAsciiLowercase
  by_cases h : isAsciiUppercase c = true
  · rw [if_pos h]
    unfold isAsciiUppercase at h
    rw [Bool.and_eq_true, decide_eq_true_eq, decide_eq_true_eq] at h
    obtain ⟨h1, h2⟩ := h
    rw [charLeIffToNat] at h1 h2
    have hA : ('A').toNat = 65 := rfl
    have hZ : ('Z').toNat = 90 := rfl
    rw [hA] at h1; rw [hZ] at h2
    have hvalid : Nat.isValidChar (c.toNat + 32) := Or.inl (by omega)
    have ht : (Char.ofNat (c.toNat + 32)).toNat = c.toNat + 32 :=
      charToNatOfNat _ hvalid
    have hle : ¬(Char.ofNat (c.toNat + 32) ≤ 'Z') := by
      rw [charLeIffToNat, ht, hZ]
      omega
    unfold isAsciiUppercase
    simp [hle]
  · rw [if_neg h]
    simpa using h

theorem createTag_latest (t : Tok) (b : Bool) : latestOk (createTag t b) = true := by
  unfold createTag latestOk
  cases b <;> simp [tagUppercaseFree]

theorem appendTagName_ok {t : Tok} {c : Char} {t2 : Tok}
    (h : appendTagName t c = some t2) (h1 : latestOk t = true)
    (hc : isAsciiUppercase c = false) : latestOk t2 = true := by
  unfold appendTagName at h
  unfold latestOk at h1 ⊢
  cases hl : t.latest_token with
  | none => rw [hl] at h; cases h
  | some tok =>
    rw [hl] at h h1
    cases tok with
    | startTag tag sc attrs =>
      cases h
      simp only [tagUppercaseFree, List.all_append, Bool.and_eq_true] at h1 ⊢
      exact ⟨h1, by simp [hc]⟩
    | endTag tag =>
      cases h
      simp only [tagUppercaseFree, List.all_append, Bool.and_eq_true] at h1 ⊢
      exact ⟨h1, by simp [hc]⟩
    | char c2 => cases h
    | eof => cases h

theorem takeLatestToken_ok {t : Tok} {tok : HTMLToken} {t2 : Tok}
    (h : takeLatestToken t = some (tok, t2)) (h1 : latestOk t = true) :
    tagUppercaseFree tok = true ∧ latestOk t2 = true := by
  unfold takeLatestToken at h
  unfold latestOk at h1 ⊢
  cases hl : t.latest_token with
  | none => rw [hl] at h; cases h
  | some tok2 =>
    rw [hl] at h h1
    cases h
    exact ⟨h1, rfl⟩

theorem startNewAttribute_ok {t t2 : Tok} (h : startNewAttribute t = some t2)
    (h1 : latestOk t = true) : latestOk t2 = true := by
  unfold startNewAttribute at h
  unfold latestOk at h1 ⊢
  cases hl : t.latest_token with
  | none => rw [hl] at h; cases h
  | some tok =>
    rw [hl] at h h1
    cases tok with
    | startTag tag sc attrs => cases h; simpa [tagUppercaseFree] using h1
    | endTag tag => cases h
    | char c2 => cases h
    | eof => cases h

theorem appendAttribute_ok {t : Tok} {c : Char} {b : Bool} {t2 : Tok}
    (h : appendAttribute t c b = some t2) (h1 : latestOk t = true) :
    latestOk t2 = true := by
  unfold appendAttribute at h
  unfold latestOk at h1 ⊢
  cases hl : t.latest_token with
  | none => rw [hl] at h; cases h
  | some tok =>
    rw [hl] at h h1
    cases tok with
    | startTag tag sc attrs =>
      simp only [] at h
      cases hg : attrs.getLast? with
      | none => rw [hg] at h; cases h
      | some a =>
        rw [hg] at h
        simp only [] at h
        cases h
        simpa [tagUppercaseFree] using h1
    | endTag tag => cases h
    | char c2 => cases h
    | eof => cases h

theorem setSelfClosingFlag_ok {t t2 : Tok} (h : setSelfClosingFlag t = some t2)
    (h1 : latestOk t = true) : latestOk t2 = true := by
  unfold setSelfClosingFlag at h
  unfold latestOk at h1 ⊢
  cases hl : t.latest_token with
  | none => rw [hl] at h; cases h
  | some tok =>
    rw [hl] at h h1
    cases tok with
    | startTag tag sc attrs => cases h; simpa [tagUppercaseFree] using h1
    | endTag tag => cases h
    | char c2 => cases h
    | eof => cases h

theorem getInput_fields {t : Tok} {c : Char} {t1 : Tok}
    (h : getInput t = some (c, t1)) : t1.latest_token = t.latest_token := by
  unfold getInput at h
  by_cases hr : t.reconsume
  · rw [if_pos hr] at h
    by_cases hp : t.pos = 0
    · rw [if_pos hp] at h; cases h
    · rw [if_neg hp] at h
      cases hg : t.input.get? (t.pos - 1) with
      | none => rw [hg] at h; cases h
      | some c2 => rw [hg] at h; cases h; rfl
  · rw [if_neg hr] at h
    cases hg : t.input.get? t.pos with
    | none => rw [hg] at h; cases h
    | some c2 => rw [hg] at h; cases h; rfl

theorem nextLoop_tags : ∀ (fuel : Nat) (t : Tok), latestOk t = true →
    ∀ tok t2, nextLoop fuel t = NextRes.tok tok t2 →
    tagUppercaseFree tok = true ∧ latestOk t2 = true := by
  intro fuel
  induction fuel with
  | zero =>
    intro t h tok t2 hres
    exact absurd hres (by simp [nextLoop])
  | succ fuel ih =>
    intro t h tok t2 hres
    rw [nextLoop] at hres
    cases hg : getInput t with
    | none => rw [hg] at hres; cases hres
    | some p =>
      obtain ⟨c, t1⟩ := p
      rw [hg] at hres
      have h1 : latestOk t1 = true := by
        rw [show latestOk t1 = latestOk t from by
          unfold latestOk; rw [getInput_fields hg]]
        exact h
      clear hg h
      obtain ⟨st1, pos1, rec1, lt1, in1, buf1⟩ := t1
      cases st1
      all_goals simp only at hres
      all_goals repeat' split at hres
      all_goals try (cases hres)
      all_goals try exact ⟨rfl, by simpa [latestOk] using h1⟩
      all_goals try exact ih _ (by simpa [latestOk] using h1) _ _ hres
      all_goals try exact ih _ (createTag_latest _ _) _ _ hres
      all_goals try (rename_i heq
                     exact takeLatestToken_ok heq (by simpa [latestOk] using h1))
      all_goals try (rename_i heq
                     exact ih _ (appendTagName_ok heq (by simpa [latestOk] using h1)
                       (toLower_not_upper c)) _ _ hres)
      all_goals try (rename_i x tX heq
                     exact ih _ (appendTagName_ok heq (by simpa [latestOk] using h1)
                       (by simp_all)) _ _ hres)
      all_goals try (rename_i heq
                     exact ih _ (startNewAttribute_ok heq
                       (by simpa [latestOk] using h1)) _ _ hres)
      all_goals try (rename_i heq
                     exact ih _ (appendAttribute_ok heq
                       (by simpa [latestOk] using h1)) _ _ hres)
      all_goals try (rename_i hsc heq
                     have hB := setSelfClosingFlag_ok hsc h1
                     exact takeLatestToken_ok heq (by simpa [latestOk] using hB))
      all_goals try (rename_i x1 tX hsc x2 heq
                     have hB := setSelfClosingFlag_ok hsc h1
                     exact takeLatestToken_ok heq (by simpa [latestOk] using hB))

theorem pulls_tags : ∀ (n : Nat) (t : Tok), latestOk t = true →
    ((pulls n t).1).all tagUppercaseFree = true := by
  intro n
  induction n with
  | zero => intro t h; simp [pulls]
  | succ n ih =>
    intro t h
    rw [pulls]
    cases ht : tokNext t with
    | tok tok t2 =>
      have hloop : nextLoop (tokFuel t) t = NextRes.tok tok t2 := by
        unfold tokNext at ht
        split at ht
        · cases ht
        · exact ht
      obtain ⟨htok, h2⟩ := nextLoop_tags (tokFuel t) t h tok t2 hloop
      simp only [List.all_cons, Bool.and_eq_true]
      exact ⟨htok, ih t2 h2⟩
    | done => simp
    | oob => simp
    | panicked => simp
    | fuelout => simp

/-- C9 counterexample.  On the input `"<h1>"` the tokenizer emits the start
tag `"h1"`, whose character `'1'` is NOT an ASCII lowercase letter — so tag
names do not consist only of the letters `a`–`z`. -/
theorem html_h1_tag_not_lowercase :
    pulls 9 (tokInit ("<h1>".toList)) =
      ([HTMLToken.startTag ("h1".toList) false []], PullEnd.finished) ∧
    lowercaseAlpha ("h1".toList) = false := ⟨rfl, rfl⟩

/-- C9 as amended.  For every input string and any number of pulls, every
`StartTag.tag` and `EndTag.tag` emitted by the HTML tokenizer contains no
ASCII uppercase letter (uppercase input letters are lowercased on append;
digits and other non-letter characters pass through unchanged). -/
theorem html_tags_no_uppercase (input : List Char) (n : Nat) :
    ((pulls n (tokInit input)).1).all tagUppercaseFree = true :=
  pulls_tags n (tokInit input) rfl

/-! ## C1 and C2: `construct_tree` diverges once a `Char` token reaches `InBody` -/

theorem construct_treeF_mono : ∀ (n : Nat) (s : PState),
    construct_treeF n s ≠ CtfRes.outOfSteam →
    construct_treeF (n + 1) s = construct_treeF n s := by
  intro n
  induction n with
  | zero =>
    intro s h
    exact absurd rfl h
  | succ n ih =>
    intro s h
    have hcur : construct_treeF (n + 1) s = (match pstep s with
      | PStep.ret ns => CtfRes.window ns
      | PStep.fail => CtfRes.failed
      | PStep.cont st2 => construct_treeF n st2) := rfl
    have hnext2 : construct_treeF (n + 1 + 1) s = (match pstep s with
      | PStep.ret ns => CtfRes.window ns
      | PStep.fail => CtfRes.failed
      | PStep.cont st2 => construct_treeF (n + 1) st2) := rfl
    rw [hcur] at h
    rw [hnext2, hcur]
    cases hp : pstep s with
    | ret ns => simp only [hp]
    | fail => simp only [hp]
    | cont st2 =>
      simp only [hp] at h ⊢
      exact ih st2 h

theorem construct_tree_mono (input : List Char) (n : Nat)
    (h : construct_tree n input ≠ CtfRes.outOfSteam) :
    construct_tree (n + 1) input = construct_tree n input := by
  unfold construct_tree at h ⊢
  cases hp : pInit input with
  | none => rfl
  | some st =>
    rw [hp] at h
    exact construct_treeF_mono n st h

theorem construct_tree_mono_add (input : List Char) (k : Nat) : ∀ (n : Nat),
    construct_tree n input ≠ CtfRes.outOfSteam →
    construct_tree (n + k) input = construct_tree n input := by
  induction k with
  | zero => intro n _; rfl
  | succ k ih =>
    intro n h
    have h1 := ih n h
    have h2 : construct_tree (n + k) input ≠ CtfRes.outOfSteam := by
      rw [h1]; exact h
    calc construct_tree (n + (k + 1)) input
        = construct_tree (n + k + 1) input := rfl
      _ = construct_tree (n + k) input := construct_tree_mono input (n + k) h2
      _ = construct_tree n input := h1

/-- C1.  On the spec's end-to-end example
`"<html><head></head><body><p>hi</p></body></html>"`, `construct_tree` does
NOT return the expected Window: after `<p>` is inserted the character token
`'h'` reaches the `InBody` insertion mode, whose `match` has no `Char` arm
(`_ => {}`), so the loop repeats forever with the same token and mode — for
every amount of fuel the run is still going (it neither returns nor
panics). -/
theorem construct_tree_hi_diverges (fuel : Nat) :
    construct_tree fuel
      ("<html><head></head><body><p>hi</p></body></html>".toList) =
      CtfRes.outOfSteam := by
  by_contra hne
  have hshift : ∀ n : Nat, construct_tree (n + 7)
      ("<html><head></head><body><p>hi</p></body></html>".toList) =
      construct_tree (n + 6)
      ("<html><head></head><body><p>hi</p></body></html>".toList) :=
    fun n => rfl
  have hsix : ∀ n : Nat, construct_tree (n + 6)
      ("<html><head></head><body><p>hi</p></body></html>".toList) =
      CtfRes.outOfSteam := by
    intro n
    induction n with
    | zero => rfl
    | succ n ihn => exact (hshift n).trans ihn
  have := construct_tree_mono_add
    ("<html><head></head><body><p>hi</p></body></html>".toList) 6 fuel hne
  rw [show fuel + 6 = fuel + 6 from rfl] at this
  rw [hsix fuel] at this
  exact hne this.symm

/-- C2.  `construct_tree` does not terminate for every input: on
`"<body>x"` the character token `'x'` reaches `InBody`, which has no `Char`
arm, so the token is neither consumed nor the mode changed and the
`while token.is_some()` loop repeats forever. -/
theorem construct_tree_body_char_diverges (fuel : Nat) :
    construct_tree fuel ("<body>x".toList) = CtfRes.outOfSteam := by
  by_contra hne
  have hshift : ∀ n : Nat, construct_tree (n + 6) ("<body>x".toList) =
      construct_tree (n + 5) ("<body>x".toList) := fun n => rfl
  have hfive : ∀ n : Nat, construct_tree (n + 5) ("<body>x".toList) =
      CtfRes.outOfSteam := by
    intro n
    induction n with
    | zero => rfl
    | succ n ihn => exact (hshift n).trans ihn
  have := construct_tree_mono_add ("<body>x".toList) 5 fuel hne
  rw [hfive fuel] at this
  exact hne this.symm

/-! ## C6: start tags in `InHead` -/

/-- C6 counterexample.  In `InHead`, a start tag with an UNKNOWN element
name (`<foo>`) is silently consumed and ignored: the step advances the
token and leaves the mode (`InHead`), the stack and the DOM unchanged — it
does not pop to `head` nor switch to `AfterHead`. -/
theorem inhead_unknown_tag_ignored :
    pstep fooState = PStep.cont { fooState with token := Option.none } ∧
    ({ fooState with token := Option.none } : PState).mode =
      InsertionMode.InHead ∧
    ({ fooState with token := Option.none } : PState).stack_of_open_elements =
      fooState.stack_of_open_elements ∧
    InsertionMode.InHead ≠ InsertionMode.AfterHead := by
  refine ⟨rfl, rfl, rfl, ?_⟩
  decide

/-- C6 as amended.  In `InHead`, a start tag whose name IS a known element
name (other than `style`/`script`, which are inserted; `body` behaves the
same as the other known names) pops the stack up to and including `head`,
switches to `AfterHead` and reprocesses the same token; a start tag with an
UNKNOWN name is silently consumed and ignored (the parser just advances to
the next token). -/
theorem inhead_start_tag_dispatch (st : PState) (tag : List Char)
    (sc : Bool) (attrs : List Attribute)
    (hmode : st.mode = InsertionMode.InHead)
    (htok : st.token = some (HTMLToken.startTag tag sc attrs)) :
    ((ElementKind.from_str tag).isSome → tag ≠ "style".toList →
      tag ≠ "script".toList →
      contain_in_stack st ElementKind.head = true →
      pstep st = PStep.cont { st with
        stack_of_open_elements :=
          popUntilLoop st.nodes ElementKind.head st.stack_of_open_elements,
        mode := InsertionMode.AfterHead }) ∧
    ((ElementKind.from_str tag).isNone → pstep st = advance st) := by
  have hpstep : pstep st = (
    if tag = "style".toList ∨ tag = "script".toList then
      match insert_element st tag attrs with
      | some st2 =>
        advance { st2 with original_insertion_mode := st.mode,
                           mode := InsertionMode.Text }
      | Option.none => PStep.fail
    else if tag = "body".toList then
      match pop_until st ElementKind.head with
      | some st2 => PStep.cont { st2 with mode := InsertionMode.AfterHead }
      | Option.none => PStep.fail
    else if (ElementKind.from_str tag).isSome then
      match pop_until st ElementKind.head with
      | some st2 => PStep.cont { st2 with mode := InsertionMode.AfterHead }
      | Option.none => PStep.fail
    else advance st) := by
    unfold pstep
    rw [htok, hmode]
  constructor
  · intro hknown hstyle hscript hhead
    have hss : ¬(tag = "style".toList ∨ tag = "script".toList) := by
      rintro (h1 | h2)
      · exact hstyle h1
      · exact hscript h2
    have hpop : pop_until st ElementKind.head = some { st with
        stack_of_open_elements := popUntilLoop st.nodes ElementKind.head
          st.stack_of_open_elements } := by
      unfold pop_until
      rw [if_pos hhead]
    rw [hpstep, if_neg hss]
    by_cases hb : tag = "body".toList
    · rw [if_pos hb, hpop]
    · rw [if_neg hb, if_pos hknown, hpop]
  · intro hunknown
    have hnone := Option.isNone_iff_eq_none.mp hunknown
    have hstyle : tag ≠ "style".toList := by
      intro h; rw [h] at hnone; simp [ElementKind.from_str] at hnone
    have hscript : tag ≠ "script".toList := by
      intro h; rw [h] at hnone; simp [ElementKind.from_str] at hnone
    have hb : tag ≠ "body".toList := by
      intro h; rw [h] at hnone; simp [ElementKind.from_str] at hnone
    have hss : ¬(tag = "style".toList ∨ tag = "script".toList) := by
      rintro (h1 | h2)
      · exact hstyle h1
      · exact hscript h2
    have hknown2 : ¬((ElementKind.from_str tag).isSome = true) := by
      rw [hnone]
      simp
    rw [hpstep, if_neg hss, if_neg hb, if_neg hknown2]

/-- Witness for C6 as amended: in the `InHead` state over the tree
Document → html → head with stack `[head, html]`, the known start tag `<a>`
pops to `head` and retries in `AfterHead` (same token), while the unknown
start tag `<foo>` is just consumed. -/
theorem inhead_start_tag_dispatch_witness :
    pstep { fooState with
        token := some (HTMLToken.startTag ("a".toList) false []) } =
      PStep.cont { fooState with
        token := some (HTMLToken.startTag ("a".toList) false []),
        stack_of_open_elements := [1],
        mode := InsertionMode.AfterHead } ∧
    pstep fooState = advance fooState := by
  constructor
  · have h := (inhead_start_tag_dispatch
      { fooState with token := some (HTMLToken.startTag ("a".toList) false []) }
      ("a".toList) false [] rfl rfl).1 (by decide) (by decide) (by decide)
      (by decide)
    refine h.trans ?_
    decide
  · exact (inhead_start_tag_dispatch fooState ("foo".toList) false []
      rfl rfl).2 (by decide)

/-! ## Arena access lemmas (C3) -/

theorem nd_append_lt {ns : List DomNode} {x : DomNode} {i : Nat}
    (h : i < ns.length) : nd (ns ++ [x]) i = nd ns i := by
  unfold nd
  rw [List.get?_append h]

theorem nd_append_eq (ns : List DomNode) (x : DomNode) :
    nd (ns ++ [x]) ns.length = x := by
  unfold nd
  rw [List.get?_append_right (le_refl _)]
  simp

theorem nd_oor {ns : List DomNode} {i : Nat} (h : ns.length ≤ i) :
    nd ns i = default := by
  unfold nd
  rw [List.get?_eq_none.mpr h]
  rfl

theorem updNd_length (ns : List DomNode) (i : Nat) (f : DomNode → DomNode) :
    (updNd ns i f).length = ns.length := by
  simp [updNd]

theorem nd_updNd_ne {ns : List DomNode} {i j : Nat} {f : DomNode → DomNode}
    (h : i ≠ j) : nd (updNd ns i f) j = nd ns j := by
  unfold nd updNd
  rw [List.get?_set_ne _ _ h]

theorem nd_updNd_eq {ns : List DomNode} {i : Nat} {f : DomNode → DomNode}
    (h : i < ns.length) : nd (updNd ns i f) i = f (nd ns i) := by
  unfold nd updNd
  rw [List.get?_set_eq_of_lt (f (nd ns i)) h]
  rfl

theorem nd_default_links :
    (default : DomNode).first_child = Option.none ∧
    (default : DomNode).next_sibling = Option.none ∧
    (default : DomNode).parent = Option.none ∧
    (default : DomNode).previous_sibling = Option.none := ⟨rfl, rfl, rfl, rfl⟩

/-! ## Well-formedness is preserved by the arena operations (C3) -/

theorem wf_append {ns : List DomNode} (hwf : Wf ns) (x : NodeKind) :
    Wf (ns ++ [DomNode.new x]) := by
  have hnd : ∀ j, nd (ns ++ [DomNode.new x]) j =
      if j = ns.length then DomNode.new x else nd ns j := by
    intro j
    by_cases hj : j = ns.length
    · rw [if_pos hj, hj, nd_append_eq]
    · rw [if_neg hj]
      rcases Nat.lt_or_ge j ns.length with hlt | hge
      · exact nd_append_lt hlt
      · have hgt : ns.length < j := by omega
        rw [nd_oor (by simp; omega), nd_oor (by omega)]
  have hlen0 : 0 < ns.length → (0 : Nat) ≠ ns.length := by omega
  constructor
  · rw [hnd 0]
    by_cases h0 : (0 : Nat) = ns.length
    · rw [if_pos h0]
      rfl
    · rw [if_neg h0]
      exact hwf.doc_nosib
  · intro i j hij
    unfold fcE at hij
    rw [hnd i] at hij
    by_cases hi : i = ns.length
    · rw [if_pos hi] at hij; cases hij
    · rw [if_neg hi] at hij
      have := hwf.fc_lt i j hij
      simp only [List.length_append, List.length_cons, List.length_nil]
      omega
  · intro i j hij
    unfold nsE at hij
    rw [hnd i] at hij
    by_cases hi : i = ns.length
    · rw [if_pos hi] at hij; cases hij
    · rw [if_neg hi] at hij
      have := hwf.ns_lt i j hij
      simp only [List.length_append, List.length_cons, List.length_nil]
      omega
  · intro i j hij
    unfold fcE at hij
    rw [hnd i] at hij
    by_cases hi : i = ns.length
    · rw [if_pos hi] at hij; cases hij
    · rw [if_neg hi] at hij
      have hj := hwf.fc_lt i j hij
      rw [hnd j, if_neg (by omega)]
      exact hwf.fc_parent i j hij
  · intro i j hij
    unfold nsE at hij
    rw [hnd i] at hij
    by_cases hi : i = ns.length
    · rw [if_pos hi] at hij; cases hij
    · rw [if_neg hi] at hij
      have hj := hwf.ns_lt i j hij
      rw [hnd j, if_neg (by omega), hnd i, if_neg hi]
      exact hwf.ns_parent i j hij
  · intro j p hjp
    rw [hnd j] at hjp
    by_cases hj : j = ns.length
    · rw [if_pos hj] at hjp; cases hjp
    · rw [if_neg hj] at hjp
      exact hwf.parent_lt j p hjp
  · intro j k hjk
    rw [hnd j] at hjk
    by_cases hj : j = ns.length
    · rw [if_pos hj] at hjk; cases hjk
    · rw [if_neg hj] at hjk
      obtain ⟨p, hp1, hp2⟩ := hwf.prev_fc j k hjk
      have hplt : p < j := hwf.parent_lt j p hp1
      have hjlt : ¬(j = ns.length) := hj
      refine ⟨p, ?_, ?_⟩
      · rw [hnd j, if_neg hj]; exact hp1
      · have hpne : p ≠ ns.length := by
          intro hc
          rw [hc] at hp2
          rw [show (nd ns ns.length) = default from nd_oor (le_refl _)] at hp2
          cases hp2
        rw [hnd p, if_neg hpne]
        exact hp2

theorem lastSibling_append {ns : List DomNode} (hwf : Wf ns) (x : DomNode) :
    ∀ (fuel i : Nat), i < ns.length →
    lastSibling (ns ++ [x]) i fuel = lastSibling ns i fuel := by
  intro fuel
  induction fuel with
  | zero => intro i _; rfl
  | succ fuel ih =>
    intro i hi
    unfold lastSibling
    rw [nd_append_lt hi]
    cases hn : (nd ns i).next_sibling with
    | none => rfl
    | some j =>
      have hj := hwf.ns_lt i j hn
      exact ih j hj.2

theorem lastSibling_spec {ns : List DomNode} (hwf : Wf ns) :
    ∀ (fuel i last : Nat), lastSibling ns i fuel = some last →
    (nd ns last).next_sibling = Option.none ∧
    (nd ns last).parent = (nd ns i).parent ∧ i ≤ last := by
  intro fuel
  induction fuel with
  | zero => intro i last h; cases h
  | succ fuel ih =>
    intro i last h
    unfold lastSibling at h
    cases hn : (nd ns i).next_sibling with
    | none =>
      rw [hn] at h
      cases h
      exact ⟨hn, rfl, le_refl _⟩
    | some j =>
      rw [hn] at h
      obtain ⟨h1, h2, h3⟩ := ih j last h
      have hij := hwf.ns_lt i j hn
      exact ⟨h1, h2.trans (hwf.ns_parent i j hn), by omega⟩

theorem wf_insert_link {ns : List DomNode} {kind : NodeKind}
    {current t0 fc : Nat} (hwf : Wf ns) (hcur : current < ns.length)
    (hfc : (nd ns current).first_child = some fc)
    (hpt : (nd ns t0).parent = some current) :
    Wf (updNd (updNd (updNd (updNd (ns ++ [DomNode.new kind]) t0
      (fun n => { n with next_sibling := some ns.length }))
      ns.length (fun n => { n with previous_sibling := some fc }))
      current (fun n => { n with last_child := some ns.length }))
      ns.length (fun n => { n with parent := some current })) := by
  set L := ns.length with hL
  have hct : current < t0 := hwf.parent_lt t0 current hpt
  have ht0L : t0 < L := by
    by_contra hge
    rw [nd_oor (by omega)] at hpt
    cases hpt
  have hfcb := hwf.fc_lt current fc hfc
  have ht0ne0 : t0 ≠ 0 := by omega
  have hLpos : 0 < L := by omega
  have hlenA0 : (ns ++ [DomNode.new kind]).length = L + 1 := by simp
  have hlenA1 : (updNd (ns ++ [DomNode.new kind]) t0
      (fun n => { n with next_sibling := some L })).length = L + 1 := by
    rw [updNd_length, hlenA0]
  have hlenA2 : (updNd (updNd (ns ++ [DomNode.new kind]) t0
      (fun n => { n with next_sibling := some L }))
      L (fun n => { n with previous_sibling := some fc })).length = L + 1 := by
    rw [updNd_length, hlenA1]
  have hlenA3 : (updNd (updNd (updNd (ns ++ [DomNode.new kind]) t0
      (fun n => { n with next_sibling := some L }))
      L (fun n => { n with previous_sibling := some fc }))
      current (fun n => { n with last_child := some L })).length = L + 1 := by
    rw [updNd_length, hlenA2]
  have hnd : ∀ j, nd (updNd (updNd (updNd (updNd (ns ++ [DomNode.new kind]) t0
      (fun n => { n with next_sibling := some L }))
      L (fun n => { n with previous_sibling := some fc }))
      current (fun n => { n with last_child := some L }))
      L (fun n => { n with parent := some current })) j =
      if j = L then
        { kind := kind, parent := some current, first_child := Option.none,
          last_child := Option.none, previous_sibling := some fc,
          next_sibling := Option.none }
      else if j = t0 then { nd ns t0 with next_sibling := some L }
      else if j = current then { nd ns current with last_child := some L }
      else nd ns j := by
    intro j
    by_cases hj : j = L
    · subst hj
      rw [if_pos rfl]
      rw [nd_updNd_eq (by rw [hlenA3]; omega)]
      rw [nd_updNd_ne (by omega)]
      rw [nd_updNd_eq (by rw [hlenA1]; omega)]
      rw [nd_updNd_ne (by omega)]
      rw [nd_append_eq]
      rfl
    · rw [if_neg hj]
      rw [nd_updNd_ne (fun hc => hj hc.symm)]
      by_cases hj2 : j = t0
      · subst hj2
        rw [if_pos rfl]
        rw [nd_updNd_ne (by omega)]
        rw [nd_updNd_ne (by intro hc; exact hj hc.symm)]
        rw [nd_updNd_eq (by rw [hlenA0]; omega)]
        rw [nd_append_lt ht0L]
      · rw [if_neg hj2]
        by_cases hj3 : j = current
        · subst hj3
          rw [if_pos rfl]
          rw [nd_updNd_eq (by rw [hlenA2]; omega)]
          rw [nd_updNd_ne (by intro hc; exact hj hc.symm)]
          rw [nd_updNd_ne (by intro hc; exact hj2 hc.symm)]
          rw [nd_append_lt hcur]
        · rw [if_neg hj3]
          rw [nd_updNd_ne (fun hc => hj3 hc.symm)]
          rw [nd_updNd_ne (fun hc => hj hc.symm)]
          rw [nd_updNd_ne (fun hc => hj2 hc.symm)]
          rcases Nat.lt_or_ge j L with hlt | hge
          · exact nd_append_lt hlt
          · rw [nd_oor (by rw [hlenA0]; omega), nd_oor (by omega)]
  have hparent_pres : ∀ j, j ≠ L → (nd (updNd (updNd (updNd (updNd
      (ns ++ [DomNode.new kind]) t0
      (fun n => { n with next_sibling := some L }))
      L (fun n => { n with previous_sibling := some fc }))
      current (fun n => { n with last_child := some L }))
      L (fun n => { n with parent := some current })) j).parent =
      (nd ns j).parent := by
    intro j hj
    rw [hnd j, if_neg hj]
    by_cases h2 : j = t0
    · subst h2; rw [if_pos rfl]
    · rw [if_neg h2]
      by_cases h3 : j = current
      · subst h3; rw [if_pos rfl]
      · rw [if_neg h3]
  have hfc_pres : ∀ j, j ≠ L → (nd (updNd (updNd (updNd (updNd
      (ns ++ [DomNode.new kind]) t0
      (fun n => { n with next_sibling := some L }))
      L (fun n => { n with previous_sibling := some fc }))
      current (fun n => { n with last_child := some L }))
      L (fun n => { n with parent := some current })) j).first_child =
      (nd ns j).first_child := by
    intro j hj
    rw [hnd j, if_neg hj]
    by_cases h2 : j = t0
    · subst h2; rw [if_pos rfl]
    · rw [if_neg h2]
      by_cases h3 : j = current
      · subst h3; rw [if_pos rfl]
      · rw [if_neg h3]
  have hlen4 : (updNd (updNd (updNd (updNd (ns ++ [DomNode.new kind]) t0
      (fun n => { n with next_sibling := some L }))
      L (fun n => { n with previous_sibling := some fc }))
      current (fun n => { n with last_child := some L }))
      L (fun n => { n with parent := some current })).length = L + 1 := by
    rw [updNd_length, hlenA3]
  constructor
  · rw [hnd 0, if_neg (by omega), if_neg (by omega)]
    by_cases h0 : (0 : Nat) = current
    · rw [if_pos h0]
      show (nd ns current).next_sibling = Option.none
      rw [← h0]
      exact hwf.doc_nosib
    · rw [if_neg h0]
      exact hwf.doc_nosib
  · intro i j hij
    unfold fcE at hij
    rw [hnd i] at hij
    rw [hlen4]
    by_cases hi : i = L
    · rw [if_pos hi] at hij; cases hij
    · rw [if_neg hi] at hij
      by_cases hi2 : i = t0
      · rw [if_pos hi2] at hij
        have := hwf.fc_lt t0 j hij
        omega
      · rw [if_neg hi2] at hij
        by_cases hi3 : i = current
        · rw [if_pos hi3] at hij
          have := hwf.fc_lt current j hij
          omega
        · rw [if_neg hi3] at hij
          have := hwf.fc_lt i j hij
          omega
  · intro i j hij
    unfold nsE at hij
    rw [hnd i] at hij
    rw [hlen4]
    by_cases hi : i = L
    · rw [if_pos hi] at hij; cases hij
    · rw [if_neg hi] at hij
      by_cases hi2 : i = t0
      · rw [if_pos hi2] at hij
        cases hij
        omega
      · rw [if_neg hi2] at hij
        by_cases hi3 : i = current
        · rw [if_pos hi3] at hij
          have := hwf.ns_lt current j hij
          omega
        · rw [if_neg hi3] at hij
          have := hwf.ns_lt i j hij
          omega
  · intro i j hij
    unfold fcE at hij
    rw [hnd i] at hij
    by_cases hi : i = L
    · rw [if_pos hi] at hij; cases hij
    · rw [if_neg hi] at hij
      have hij2 : fcE ns i j := by
        unfold fcE
        by_cases hi2 : i = t0
        · rw [if_pos hi2] at hij; rw [hi2]; exact hij
        · rw [if_neg hi2] at hij
          by_cases hi3 : i = current
          · rw [if_pos hi3] at hij; rw [hi3]; exact hij
          · rw [if_neg hi3] at hij; exact hij
      have hjb := hwf.fc_lt i j hij2
      rw [hparent_pres j (by omega)]
      exact hwf.fc_parent i j hij2
  · intro i j hij
    unfold nsE at hij
    rw [hnd i] at hij
    by_cases hi : i = L
    · rw [if_pos hi] at hij; cases hij
    · rw [if_neg hi] at hij
      by_cases hi2 : i = t0
      · rw [if_pos hi2] at hij
        cases hij
        rw [hnd L, if_pos rfl]
        show some current = _
        rw [hi2, hparent_pres t0 (by omega), hpt]
      · rw [if_neg hi2] at hij
        have hij2 : nsE ns i j := by
          unfold nsE
          by_cases hi3 : i = current
          · rw [if_pos hi3] at hij; rw [hi3]; exact hij
          · rw [if_neg hi3] at hij; exact hij
        have hjb := hwf.ns_lt i j hij2
        rw [hparent_pres j (by omega), hparent_pres i (by omega)]
        exact hwf.ns_parent i j hij2
  · intro j p hjp
    by_cases hj : j = L
    · rw [hnd j, if_pos hj] at hjp
      cases hjp
      omega
    · rw [hparent_pres j hj] at hjp
      exact hwf.parent_lt j p hjp
  · intro j k hjk
    rw [hnd j] at hjk
    by_cases hj : j = L
    · rw [if_pos hj] at hjk
      cases hjk
      refine ⟨current, ?_, ?_⟩
      · rw [hnd j, if_pos hj]
      · rw [hfc_pres current (by omega)]
        exact hfc
    · rw [if_neg hj] at hjk
      have hjk2 : (nd ns j).previous_sibling = some k := by
        by_cases hj2 : j = t0
        · rw [if_pos hj2] at hjk; rw [hj2]; exact hjk
        · rw [if_neg hj2] at hjk
          by_cases hj3 : j = current
          · rw [if_pos hj3] at hjk; rw [hj3]; exact hjk
          · rw [if_neg hj3] at hjk; exact hjk
      obtain ⟨p, hp1, hp2⟩ := hwf.prev_fc j k hjk2
      have hpj := hwf.parent_lt j p hp1
      have hpL : p ≠ L := by
        intro hc
        rw [hc] at hp2
        rw [nd_oor (le_refl _)] at hp2
        cases hp2
      refine ⟨p, ?_, ?_⟩
      · rw [hparent_pres j hj]
        exact hp1
      · rw [hfc_pres p hpL]
        exact hp2

theorem wf_insert_first {ns : List DomNode} {kind : NodeKind}
    {current : Nat} (hwf : Wf ns) (hcur : current < ns.length)
    (hfcn : (nd ns current).first_child = Option.none) :
    Wf (updNd (updNd (updNd (ns ++ [DomNode.new kind])
      current (fun n => { n with first_child := some ns.length }))
      current (fun n => { n with last_child := some ns.length }))
      ns.length (fun n => { n with parent := some current })) := by
  set L := ns.length with hL
  have hlenA0 : (ns ++ [DomNode.new kind]).length = L + 1 := by simp
  have hlenA1 : (updNd (ns ++ [DomNode.new kind])
      current (fun n => { n with first_child := some L })).length = L + 1 := by
    rw [updNd_length, hlenA0]
  have hlenA2 : (updNd (updNd (ns ++ [DomNode.new kind])
      current (fun n => { n with first_child := some L }))
      current (fun n => { n with last_child := some L })).length = L + 1 := by
    rw [updNd_length, hlenA1]
  have hnd : ∀ j, nd (updNd (updNd (updNd (ns ++ [DomNode.new kind])
      current (fun n => { n with first_child := some L }))
      current (fun n => { n with last_child := some L }))
      L (fun n => { n with parent := some current })) j =
      if j = L then
        { kind := kind, parent := some current, first_child := Option.none,
          last_child := Option.none, previous_sibling := Option.none,
          next_sibling := Option.none }
      else if j = current then
        { nd ns current with first_child := some L, last_child := some L }
      else nd ns j := by
    intro j
    by_cases hj : j = L
    · subst hj
      rw [if_pos rfl]
      rw [nd_updNd_eq (by rw [hlenA2]; omega)]
      rw [nd_updNd_ne (by omega)]
      rw [nd_updNd_ne (by omega)]
      rw [nd_append_eq]
      rfl
    · rw [if_neg hj]
      rw [nd_updNd_ne (fun hc => hj hc.symm)]
      by_cases hj2 : j = current
      · subst hj2
        rw [if_pos rfl]
        rw [nd_updNd_eq (by rw [hlenA1]; omega)]
        rw [nd_updNd_eq (by rw [hlenA0]; omega)]
        rw [nd_append_lt hcur]
      · rw [if_neg hj2]
        rw [nd_updNd_ne (fun hc => hj2 hc.symm)]
        rw [nd_updNd_ne (fun hc => hj2 hc.symm)]
        rcases Nat.lt_or_ge j L with hlt | hge
        · exact nd_append_lt hlt
        · rw [nd_oor (by rw [hlenA0]; omega), nd_oor (by omega)]
  have hcL : current ≠ L := by omega
  have hparent_pres : ∀ j, j ≠ L → (nd (updNd (updNd (updNd
      (ns ++ [DomNode.new kind])
      current (fun n => { n with first_child := some L }))
      current (fun n => { n with last_child := some L }))
      L (fun n => { n with parent := some current })) j).parent =
      (nd ns j).parent := by
    intro j hj
    rw [hnd j, if_neg hj]
    by_cases h2 : j = current
    · subst h2; rw [if_pos rfl]
    · rw [if_neg h2]
  have hns_pres : ∀ j, j ≠ L → (nd (updNd (updNd (updNd
      (ns ++ [DomNode.new kind])
      current (fun n => { n with first_child := some L }))
      current (fun n => { n with last_child := some L }))
      L (fun n => { n with parent := some current })) j).next_sibling =
      (nd ns j).next_sibling := by
    intro j hj
    rw [hnd j, if_neg hj]
    by_cases h2 : j = current
    · subst h2; rw [if_pos rfl]
    · rw [if_neg h2]
  have hlen3 : (updNd (updNd (updNd (ns ++ [DomNode.new kind])
      current (fun n => { n with first_child := some L }))
      current (fun n => { n with last_child := some L }))
      L (fun n => { n with parent := some current })).length = L + 1 := by
    rw [updNd_length, hlenA2]
  constructor
  · rw [hns_pres 0 (by omega)]
    exact hwf.doc_nosib
  · intro i j hij
    unfold fcE at hij
    rw [hnd i] at hij
    rw [hlen3]
    by_cases hi : i = L
    · rw [if_pos hi] at hij; cases hij
    · rw [if_neg hi] at hij
      by_cases hi2 : i = current
      · rw [if_pos hi2] at hij
        cases hij
        omega
      · rw [if_neg hi2] at hij
        have := hwf.fc_lt i j hij
        omega
  · intro i j hij
    unfold nsE at hij
    rw [hnd i] at hij
    rw [hlen3]
    by_cases hi : i = L
    · rw [if_pos hi] at hij; cases hij
    · rw [if_neg hi] at hij
      by_cases hi2 : i = current
      · rw [if_pos hi2] at hij
        have hij2 : nsE ns current j := hij
        have := hwf.ns_lt current j hij2
        omega
      · rw [if_neg hi2] at hij
        have := hwf.ns_lt i j hij
        omega
  · intro i j hij
    unfold fcE at hij
    rw [hnd i] at hij
    by_cases hi : i = L
    · rw [if_pos hi] at hij; cases hij
    · rw [if_neg hi] at hij
      by_cases hi2 : i = current
      · rw [if_pos hi2] at hij
        cases hij
        rw [hnd L, if_pos rfl, hi2]
      · rw [if_neg hi2] at hij
        have hjb := hwf.fc_lt i j hij
        rw [hparent_pres j (by omega)]
        exact hwf.fc_parent i j hij
  · intro i j hij
    unfold nsE at hij
    rw [hnd i] at hij
    by_cases hi : i = L
    · rw [if_pos hi] at hij; cases hij
    · rw [if_neg hi] at hij
      have hij2 : nsE ns i j := by
        unfold nsE
        by_cases hi2 : i = current
        · rw [if_pos hi2] at hij; rw [hi2]; exact hij
        · rw [if_neg hi2] at hij; exact hij
      have hjb := hwf.ns_lt i j hij2
      rw [hparent_pres j (by omega), hparent_pres i hi]
      exact hwf.ns_parent i j hij2
  · intro j p hjp
    by_cases hj : j = L
    · rw [hnd j, if_pos hj] at hjp
      cases hjp
      omega
    · rw [hparent_pres j hj] at hjp
      exact hwf.parent_lt j p hjp
  · intro j k hjk
    rw [hnd j] at hjk
    by_cases hj : j = L
    · rw [if_pos hj] at hjk; cases hjk
    · rw [if_neg hj] at hjk
      have hjk2 : (nd ns j).previous_sibling = some k := by
        by_cases hj2 : j = current
        · rw [if_pos hj2] at hjk; rw [hj2]; exact hjk
        · rw [if_neg hj2] at hjk; exact hjk
      obtain ⟨p, hp1, hp2⟩ := hwf.prev_fc j k hjk2
      have hpc : p ≠ current := by
        intro hc
        rw [hc, hfcn] at hp2
        cases hp2
      have hpL : p ≠ L := by
        intro hc
        rw [hc] at hp2
        rw [nd_oor (le_refl _)] at hp2
        cases hp2
      refine ⟨p, ?_, ?_⟩
      · rw [hparent_pres j hj]
        exact hp1
      · rw [hnd p, if_neg hpL, if_neg hpc]
        exact hp2

theorem wf_update_kind {ns : List DomNode} (hwf : Wf ns) {i : Nat}
    (hi : i < ns.length) (k : NodeKind) :
    Wf (updNd ns i (fun n => { n with kind := k })) := by
  have hp : ∀ j, (nd (updNd ns i (fun n => { n with kind := k })) j).parent =
      (nd ns j).parent := by
    intro j
    by_cases hj : j = i
    · subst hj; rw [nd_updNd_eq hi]
    · rw [nd_updNd_ne (Ne.symm hj)]
  have hf : ∀ j, (nd (updNd ns i (fun n => { n with kind := k })) j).first_child =
      (nd ns j).first_child := by
    intro j
    by_cases hj : j = i
    · subst hj; rw [nd_updNd_eq hi]
    · rw [nd_updNd_ne (Ne.symm hj)]
  have hn : ∀ j, (nd (updNd ns i (fun n => { n with kind := k })) j).next_sibling =
      (nd ns j).next_sibling := by
    intro j
    by_cases hj : j = i
    · subst hj; rw [nd_updNd_eq hi]
    · rw [nd_updNd_ne (Ne.symm hj)]
  have hv : ∀ j, (nd (updNd ns i (fun n => { n with kind := k })) j).previous_sibling =
      (nd ns j).previous_sibling := by
    intro j
    by_cases hj : j = i
    · subst hj; rw [nd_updNd_eq hi]
    · rw [nd_updNd_ne (Ne.symm hj)]
  constructor
  · rw [hn 0]; exact hwf.doc_nosib
  · intro a b hab
    unfold fcE at hab
    rw [hf a] at hab
    rw [updNd_length]
    exact hwf.fc_lt a b hab
  · intro a b hab
    unfold nsE at hab
    rw [hn a] at hab
    rw [updNd_length]
    exact hwf.ns_lt a b hab
  · intro a b hab
    unfold fcE at hab
    rw [hf a] at hab
    rw [hp b]
    exact hwf.fc_parent a b hab
  · intro a b hab
    unfold nsE at hab
    rw [hn a] at hab
    rw [hp b, hp a]
    exact hwf.ns_parent a b hab
  · intro j p hjp
    rw [hp j] at hjp
    exact hwf.parent_lt j p hjp
  · intro j m hjm
    rw [hv j] at hjm
    obtain ⟨p, h1, h2⟩ := hwf.prev_fc j m hjm
    exact ⟨p, by rw [hp j]; exact h1, by rw [hf p]; exact h2⟩

theorem head_getD_lt {st : PState} (h : PInv st) :
    (st.stack_of_open_elements.head?).getD 0 < st.nodes.length := by
  obtain ⟨_, hpos, hstk⟩ := h
  cases hs : st.stack_of_open_elements with
  | nil => simpa using hpos
  | cons a rest =>
    have := hstk a (by rw [hs]; exact List.mem_cons_self a rest)
    simpa using this.2

theorem insert_element_inv {st st2 : PState} {tag : List Char}
    {attrs : List Attribute} (h : PInv st)
    (he : insert_element st tag attrs = some st2) : PInv st2 := by
  have hcur := head_getD_lt h
  obtain ⟨hwf, hpos, hstk⟩ := h
  unfold insert_element at he
  split at he
  · cases he
  · rename_i kind hek
    simp only [] at he
    split at he
    · rename_i fc hfc
      rw [nd_append_lt hcur] at hfc
      split at he
      · cases he
      · rename_i last hls
        rw [lastSibling_append hwf _ _ _ (hwf.fc_lt _ fc hfc).2] at hls
        obtain ⟨_, hlp, _⟩ := lastSibling_spec hwf _ fc last hls
        have hpt : (nd st.nodes last).parent =
            some ((st.stack_of_open_elements.head?).getD 0) := by
          rw [hlp]
          exact hwf.fc_parent _ fc hfc
        cases he
        refine ⟨wf_insert_link hwf hcur hfc hpt, ?_, ?_⟩
        · simp only [updNd_length, List.length_append, List.length_cons,
            List.length_nil]
          omega
        · intro i hi
          simp only [List.mem_cons] at hi
          simp only [updNd_length, List.length_append, List.length_cons,
            List.length_nil]
          rcases hi with hieq | himem
          · omega
          · have := hstk i himem
            omega
    · rename_i hfc
      rw [nd_append_lt hcur] at hfc
      cases he
      refine ⟨wf_insert_first hwf hcur hfc, ?_, ?_⟩
      · simp only [updNd_length, List.length_append, List.length_cons,
          List.length_nil]
        omega
      · intro i hi
        simp only [List.mem_cons] at hi
        simp only [updNd_length, List.length_append, List.length_cons,
          List.length_nil]
        rcases hi with hieq | himem
        · omega
        · have := hstk i himem
          omega

theorem insert_char_inv {st : PState} (c : Char) (h : PInv st) :
    PInv (insert_char st c) := by
  obtain ⟨hwf, hpos, hstk⟩ := h
  unfold insert_char
  cases hs : st.stack_of_open_elements.head? with
  | none => simp only []; exact ⟨hwf, hpos, hstk⟩
  | some current =>
    simp only []
    have hmem : current ∈ st.stack_of_open_elements := by
      cases hl : st.stack_of_open_elements with
      | nil => rw [hl] at hs; cases hs
      | cons a rest =>
        rw [hl] at hs
        cases hs
        exact List.mem_cons_self _ _
    have hcur := (hstk current hmem).2
    cases hk : (nd st.nodes current).kind with
    | text s =>
      simp only []
      refine ⟨wf_update_kind hwf hcur _, ?_, ?_⟩
      · simp only [updNd_length]
        exact hpos
      · intro i hi
        simp only [updNd_length]
        exact hstk i hi
    | document =>
      simp only []
      by_cases hwsp : c = '\n' ∨ c = ' '
      · rw [if_pos hwsp]
        exact ⟨hwf, hpos, hstk⟩
      · rw [if_neg hwsp]
        cases hfc : (nd (st.nodes ++ [DomNode.new (NodeKind.text [c])])
            current).first_child with
        | some fc =>
          simp only []
          rw [nd_append_lt hcur] at hfc
          have hpt : (nd st.nodes fc).parent = some current :=
            hwf.fc_parent current fc hfc
          refine ⟨wf_insert_link hwf hcur hfc hpt, ?_, ?_⟩
          · simp only [updNd_length, List.length_append, List.length_cons,
              List.length_nil]
            omega
          · intro i hi
            simp only [List.mem_cons] at hi
            simp only [updNd_length, List.length_append, List.length_cons,
              List.length_nil]
            rcases hi with hieq | himem
            · omega
            · have := hstk i himem
              omega
        | none =>
          simp only []
          rw [nd_append_lt hcur] at hfc
          refine ⟨wf_insert_first hwf hcur hfc, ?_, ?_⟩
          · simp only [updNd_length, List.length_append, List.length_cons,
              List.length_nil]
            omega
          · intro i hi
            simp only [List.mem_cons] at hi
            simp only [updNd_length, List.length_append, List.length_cons,
              List.length_nil]
            rcases hi with hieq | himem
            · omega
            · have := hstk i himem
              omega
    | element e =>
      simp only []
      by_cases hwsp : c = '\n' ∨ c = ' '
      · rw [if_pos hwsp]
        exact ⟨hwf, hpos, hstk⟩
      · rw [if_neg hwsp]
        cases hfc : (nd (st.nodes ++ [DomNode.new (NodeKind.text [c])])
            current).first_child with
        | some fc =>
          simp only []
          rw [nd_append_lt hcur] at hfc
          have hpt : (nd st.nodes fc).parent = some current :=
            hwf.fc_parent current fc hfc
          refine ⟨wf_insert_link hwf hcur hfc hpt, ?_, ?_⟩
          · simp only [updNd_length, List.length_append, List.length_cons,
              List.length_nil]
            omega
          · intro i hi
            simp only [List.mem_cons] at hi
            simp only [updNd_length, List.length_append, List.length_cons,
              List.length_nil]
            rcases hi with hieq | himem
            · omega
            · have := hstk i himem
              omega
        | none =>
          simp only []
          rw [nd_append_lt hcur] at hfc
          refine ⟨wf_insert_first hwf hcur hfc, ?_, ?_⟩
          · simp only [updNd_length, List.length_append, List.length_cons,
              List.length_nil]
            omega
          · intro i hi
            simp only [List.mem_cons] at hi
            simp only [updNd_length, List.length_append, List.length_cons,
              List.length_nil]
            rcases hi with hieq | himem
            · omega
            · have := hstk i himem
              omega

theorem popUntilLoop_subset {ns : List DomNode} {k : ElementKind} :
    ∀ (stk : List Nat) (i : Nat), i ∈ popUntilLoop ns k stk → i ∈ stk := by
  intro stk
  induction stk with
  | nil => intro i hi; cases hi
  | cons a rest ih =>
    intro i hi
    unfold popUntilLoop at hi
    by_cases ha : (nd ns a).get_element_kind = some k
    · rw [if_pos ha] at hi
      exact List.mem_cons_of_mem a hi
    · rw [if_neg ha] at hi
      exact List.mem_cons_of_mem a (ih i hi)

theorem pop_until_inv {st st2 : PState} {k : ElementKind} (h : PInv st)
    (he : pop_until st k = some st2) : PInv st2 := by
  obtain ⟨hwf, hpos, hstk⟩ := h
  unfold pop_until at he
  split at he
  · cases he
    exact ⟨hwf, hpos, fun i hi => hstk i (popUntilLoop_subset _ i hi)⟩
  · cases he

theorem pop_current_node_inv {st : PState} (k : ElementKind) (h : PInv st) :
    PInv (pop_current_node st k).2 := by
  obtain ⟨hwf, hpos, hstk⟩ := h
  unfold pop_current_node
  cases hs : st.stack_of_open_elements with
  | nil => exact ⟨hwf, hpos, hstk⟩
  | cons a rest =>
    simp only []
    by_cases ha : (nd st.nodes a).get_element_kind = some k
    · rw [if_pos ha]
      exact ⟨hwf, hpos, fun i hi => hstk i (by rw [hs]; exact List.mem_cons_of_mem a hi)⟩
    · rw [if_neg ha]
      exact ⟨hwf, hpos, hstk⟩

theorem advance_ps {st : PState} :
    (∀ st2, advance st = PStep.cont st2 →
      st2.nodes = st.nodes ∧ st2.stack_of_open_elements = st.stack_of_open_elements) ∧
    (∀ ns, advance st = PStep.ret ns → False) := by
  constructor
  · intro st2 h2
    unfold advance at h2
    split at h2
    · cases h2; exact ⟨rfl, rfl⟩
    · cases h2
  · intro ns h2
    unfold advance at h2
    split at h2 <;> cases h2

theorem advance_ok {st : PState} (h : PInv st) : stepOK (advance st) := by
  unfold advance
  split
  · exact h
  · trivial

theorem pstep_ok {st : PState} (h : PInv st) : stepOK (pstep st) := by
  unfold pstep
  cases htok : st.token with
  | none => exact ⟨h.1, h.2.1⟩
  | some tok =>
    cases hmode : st.mode <;> cases tok <;>
      simp only [] <;>
      (repeat' split) <;>
      first
        | exact h
        | exact ⟨h.1, h.2.1⟩
        | trivial
        | exact advance_ok h
        | exact advance_ok (insert_char_inv _ h)
        | exact pop_current_node_inv _ (pop_current_node_inv _ h)
        | (rename_i st2 he
           have hst2 := insert_element_inv h he
           exact ⟨hst2.1, hst2.2.1, hst2.2.2⟩)
        | (rename_i st2 he
           have hst2 := insert_element_inv h he
           exact advance_ok ⟨hst2.1, hst2.2.1, hst2.2.2⟩)
        | (rename_i st2 he
           have hst2 := pop_until_inv h he
           exact ⟨hst2.1, hst2.2.1, hst2.2.2⟩)
        | (rename_i st2 he
           have hst2 := pop_until_inv h he
           exact advance_ok ⟨hst2.1, hst2.2.1, hst2.2.2⟩)

theorem construct_treeF_wf : ∀ (fuel : Nat) (st : PState), PInv st →
    ∀ ns, construct_treeF fuel st = CtfRes.window ns →
    Wf ns ∧ 0 < ns.length := by
  intro fuel
  induction fuel with
  | zero => intro st h ns hw; cases hw
  | succ fuel ih =>
    intro st h ns hw
    unfold construct_treeF at hw
    cases hp : pstep st with
    | ret ns2 =>
      rw [hp] at hw
      cases hw
      have hok := pstep_ok h
      rw [hp] at hok
      exact hok
    | fail => rw [hp] at hw; cases hw
    | cont st2 =>
      rw [hp] at hw
      have hok := pstep_ok h
      rw [hp] at hok
      exact ih st2 hok ns hw

theorem wf_single (k : NodeKind) : Wf [DomNode.new k] := by
  have hnd : ∀ i, (nd [DomNode.new k] i).parent = Option.none ∧
      (nd [DomNode.new k] i).first_child = Option.none ∧
      (nd [DomNode.new k] i).next_sibling = Option.none ∧
      (nd [DomNode.new k] i).previous_sibling = Option.none := by
    intro i
    cases i with
    | zero => exact ⟨rfl, rfl, rfl, rfl⟩
    | succ n => exact ⟨rfl, rfl, rfl, rfl⟩
  constructor
  · exact (hnd 0).2.2.1
  · intro i j hij
    unfold fcE at hij
    rw [(hnd i).2.1] at hij
    cases hij
  · intro i j hij
    unfold nsE at hij
    rw [(hnd i).2.2.1] at hij
    cases hij
  · intro i j hij
    unfold fcE at hij
    rw [(hnd i).2.1] at hij
    cases hij
  · intro i j hij
    unfold nsE at hij
    rw [(hnd i).2.2.1] at hij
    cases hij
  · intro j p hjp
    rw [(hnd j).1] at hjp
    cases hjp
  · intro j m hjm
    rw [(hnd j).2.2.2] at hjm
    cases hjm

theorem pInit_inv {input : List Char} {st : PState}
    (h : pInit input = some st) : PInv st := by
  unfold pInit at h
  split at h
  · cases h
    refine ⟨wf_single _, by simp, ?_⟩
    intro i hi
    simp at hi
  · cases h

theorem construct_tree_wf {fuel : Nat} {input : List Char}
    {ns : List DomNode} (h : construct_tree fuel input = CtfRes.window ns) :
    Wf ns ∧ 0 < ns.length := by
  unfold construct_tree at h
  split at h
  · rename_i st hinit
    exact construct_treeF_wf fuel st (pInit_inv hinit) ns h
  · cases h

theorem chainFrom_self_mem {ns : List DomNode} {i fuel : Nat}
    (h : 0 < fuel) : i ∈ chainFrom ns i fuel := by
  cases fuel with
  | zero => exact absurd h (lt_irrefl 0)
  | succ n =>
    unfold chainFrom
    exact List.mem_cons_self _ _

theorem chainFrom_mem_ge {ns : List DomNode} (hwf : Wf ns) :
    ∀ (fuel s y : Nat), y ∈ chainFrom ns s fuel → s ≤ y := by
  intro fuel
  induction fuel with
  | zero => intro s y hy; cases hy
  | succ fuel ih =>
    intro s y hy
    unfold chainFrom at hy
    rcases List.mem_cons.mp hy with h1 | h2
    · omega
    · cases hn : (nd ns s).next_sibling with
      | none => rw [hn] at h2; cases h2
      | some j =>
        rw [hn] at h2
        have hge := ih j y h2
        have hlt := hwf.ns_lt s j hn
        omega

theorem chainFrom_pairwise {ns : List DomNode} (hwf : Wf ns) :
    ∀ (fuel s : Nat), (chainFrom ns s fuel).Pairwise (fun a b => a < b) := by
  intro fuel
  induction fuel with
  | zero => intro s; exact List.Pairwise.nil
  | succ fuel ih =>
    intro s
    unfold chainFrom
    cases hn : (nd ns s).next_sibling with
    | none => simp
    | some j =>
      refine List.Pairwise.cons ?_ (ih j)
      intro y hy
      have h1 := chainFrom_mem_ge hwf fuel j y hy
      have h2 := hwf.ns_lt s j hn
      omega

theorem chainFrom_mem_next {ns : List DomNode} (hwf : Wf ns) :
    ∀ (fuel s i j : Nat), i ∈ chainFrom ns s fuel → nsE ns i j →
      j < s + fuel → j ∈ chainFrom ns s fuel := by
  intro fuel
  induction fuel with
  | zero => intro s i j hi _ _; cases hi
  | succ fuel ih =>
    intro s i j hi hij hb
    unfold chainFrom at hi ⊢
    rcases List.mem_cons.mp hi with h1 | h2
    · subst h1
      have hsj := hwf.ns_lt i j hij
      unfold nsE at hij
      rw [hij]
      refine List.mem_cons_of_mem _ (chainFrom_self_mem ?_)
      omega
    · cases hn : (nd ns s).next_sibling with
      | none => rw [hn] at h2; cases h2
      | some m =>
        rw [hn] at h2
        have hsm := hwf.ns_lt s m hn
        exact List.mem_cons_of_mem _ (ih m i j h2 hij (by omega))

theorem reachable_chain {ns : List DomNode} (hwf : Wf ns) {n : Nat}
    (hr : ReachableFrom ns n) :
    ∀ p, (nd ns n).parent = some p → n ∈ childChain ns p := by
  induction hr with
  | root =>
    intro p hp
    exact absurd (hwf.parent_lt 0 p hp) (by omega)
  | fc hri hedge ih =>
    rename_i i j
    intro p hp
    have hpi := hwf.fc_parent i j hedge
    rw [hp] at hpi
    have hpe := (Option.some.inj hpi).symm
    subst hpe
    have hlen := (hwf.fc_lt i j hedge).2
    unfold childChain
    unfold fcE at hedge
    rw [hedge]
    exact chainFrom_self_mem (by omega)
  | sib hri hedge ih =>
    rename_i i j
    intro p hp
    have hpp := hwf.ns_parent i j hedge
    rw [hpp] at hp
    have hmem := ih p hp
    unfold childChain at hmem ⊢
    cases hfc : (nd ns p).first_child with
    | none => rw [hfc] at hmem; cases hmem
    | some f =>
      rw [hfc] at hmem
      have hjlt := (hwf.ns_lt i j hedge).2
      exact chainFrom_mem_next hwf ns.length f i j hmem hedge (by omega)

theorem ancestor_lt {ns : List DomNode} (hwf : Wf ns) {n p : Nat}
    (h : IsAncestorOf ns p n) : p < n := by
  unfold IsAncestorOf at h
  induction h with
  | single hstep => exact hwf.parent_lt _ _ hstep
  | tail hta hstep ih =>
    have := hwf.parent_lt _ _ hstep
    omega

/-- **C3** (amended).  For every input and fuel bound on which
`construct_tree` returns a Window, every node `N` reachable from the
Document satisfies: `N` occurs exactly once in the chain
`N.parent.first_child → next_sibling*`; whenever `N.previous_sibling` is
present it references the FIRST child of `N`'s parent (the source assigns
`previous_sibling` from the target's `first_child`, not the actual
predecessor); and no node is its own ancestor. -/
theorem construct_tree_wellformed (fuel : Nat) (input : List Char)
    (ns : List DomNode) (hw : construct_tree fuel input = CtfRes.window ns)
    (n : Nat) (hr : ReachableFrom ns n) :
    (∀ p, (nd ns n).parent = some p → (childChain ns p).count n = 1) ∧
    (∀ k, (nd ns n).previous_sibling = some k →
      ∃ p, (nd ns n).parent = some p ∧ (nd ns p).first_child = some k) ∧
    ¬ IsAncestorOf ns n n := by
  obtain ⟨hwf, hpos⟩ := construct_tree_wf hw
  refine ⟨?_, ?_, ?_⟩
  · intro p hp
    have hmem := reachable_chain hwf hr p hp
    have hnodup : (childChain ns p).Nodup := by
      unfold childChain
      cases hfc : (nd ns p).first_child with
      | none => exact List.nodup_nil
      | some f =>
        exact List.Pairwise.imp (fun h => Nat.ne_of_lt h)
          (chainFrom_pairwise hwf ns.length f)
    exact List.count_eq_one_of_mem hnodup hmem
  · exact fun k hk => hwf.prev_fc n k hk
  · intro hcon
    exact absurd (ancestor_lt hwf hcon) (lt_irrefl n)

/-- Closed instantiation: on `"<html>"` the returned Window is the
Document with one `html` child; the `html` node occurs exactly once in the
Document's child chain and is not its own ancestor. -/
theorem construct_tree_wellformed_witness :
    (childChain htmlArena 0).count 1 = 1 ∧ ¬ IsAncestorOf htmlArena 1 1 := by
  have h := construct_tree_wellformed 3 ("<html>".toList) htmlArena rfl 1
    (ReachableFrom.fc ReachableFrom.root rfl)
  exact ⟨h.1 0 rfl, h.2.2⟩

/-- Counterexample to C3 as stated: the source sets a new node's
`previous_sibling` to the target's FIRST child, not the actual
predecessor.  On
`"<html><head><style></style><script></script><style></style>"` the
returned Window's arena is `tripleArena`; its node 5 (the second `style`,
`head`'s third child) is reachable and carries `previous_sibling = 3`, yet
node 3's `next_sibling` is node 4 — so `N.previous_sibling.next_sibling`
is not `N`. -/
theorem insert_sets_previous_sibling_to_first_child :
    construct_tree 20
      ("<html><head><style></style><script></script><style></style>".toList)
      = CtfRes.window tripleArena ∧
    ReachableFrom tripleArena 5 ∧
    (nd tripleArena 5).previous_sibling = some 3 ∧
    (nd tripleArena 3).next_sibling = some 4 := by
  refine ⟨rfl, ?_, rfl, rfl⟩
  exact ReachableFrom.sib (ReachableFrom.sib (ReachableFrom.fc (ReachableFrom.fc
    (ReachableFrom.fc ReachableFrom.root rfl) rfl) rfl) rfl) rfl

end Saba
